import Mathlib

/-!
A shallow embedding of the logistics-network optimisation engine: the entity
model (src/models/element.py, src/models/network.py), the distance and
assignment services (src/services/distance.py), the cost model
(src/services/cost_calculator.py) and the optimiser layer
(src/optimizers/base.py, src/optimizers/coordinate.py,
src/optimizers/genetic.py).

Conventions of the embedding:
* Python floats are idealised as real numbers (`ℝ`).
* A Python operation that can raise is modelled as returning an `Option`,
  with `none` standing for the raised exception.
* The in-place mutation of the network performed by the optimisers is
  modelled by explicit state passing: a function that mutates the network
  returns the updated network.
* The pseudo-random draws of the genetic optimiser are modelled by oracle
  functions supplied as explicit arguments; every run of the Python code
  corresponds to one choice of oracles, so a property proved for all
  oracles holds for every run.
-/

noncomputable section

/-- Center from src/models/element.py: a distribution centre with an id and
2D coordinates. -/
structure Center where
  id : Int
  x : ℝ
  y : ℝ

/-- Terminal from src/models/element.py: id, 2D coordinates, fixed terminal
cost, per-unit processing cost and the active flag (True at construction). -/
structure Terminal where
  id : Int
  x : ℝ
  y : ℝ
  terminal_cost : ℝ
  processing_cost : ℝ
  is_active : Bool

/-- Consumer from src/models/element.py: id, 2D coordinates, demand and the
optional id of the assigned terminal (None at construction). -/
structure Consumer where
  id : Int
  x : ℝ
  y : ℝ
  demand : ℝ
  assigned_terminal : Option Int

/-- Coordinates of a centre, as the tuple the distance service works on. -/
def Center.pos (c : Center) : ℝ × ℝ := (c.x, c.y)

/-- Coordinates of a terminal. -/
def Terminal.pos (t : Terminal) : ℝ × ℝ := (t.x, t.y)

/-- Coordinates of a consumer. -/
def Consumer.pos (c : Consumer) : ℝ × ℝ := (c.x, c.y)

/-- euclidean_distance from src/services/distance.py, on coordinate pairs
(the Python function accepts an Element or an (x, y) tuple, and both reduce
to their coordinates before the arithmetic). -/
def euclidean_distance (p q : ℝ × ℝ) : ℝ :=
  Real.sqrt ((q.1 - p.1) ^ 2 + (q.2 - p.2) ^ 2)

/-- The loop of find_nearest_terminal (src/services/distance.py): walk the
available terminals keeping the best pair found.  The accumulator `none`
models the initial state nearest = None, min_distance = inf: the first
terminal always replaces it, exactly as any distance compares below inf. -/
def nearestLoop (c : Consumer) : List Terminal → Option (Terminal × ℝ) → Option (Terminal × ℝ)
  | [], acc => acc
  | t :: ts, acc =>
      let d := euclidean_distance c.pos t.pos
      match acc with
      | none => nearestLoop c ts (some (t, d))
      | some (best, bd) =>
          if d < bd then nearestLoop c ts (some (t, d))
          else nearestLoop c ts (some (best, bd))

/-- The eligible terminals of find_nearest_terminal: all of them, or only the
active ones when active_only is set. -/
def availableTerminals (terminals : List Terminal) (active_only : Bool) : List Terminal :=
  if active_only then terminals.filter (fun t => t.is_active) else terminals

/-- find_nearest_terminal from src/services/distance.py.  `none` models the
ValueError raised when no terminal is available. -/
def find_nearest_terminal (c : Consumer) (terminals : List Terminal)
    (active_only : Bool) : Option (Terminal × ℝ) :=
  nearestLoop c (availableTerminals terminals active_only) none

/-- The loop of LogisticsNetwork.assign_consumers_to_terminals
(src/models/network.py): each consumer in order is assigned the id of its
nearest active terminal; the first failed lookup aborts the pass (`none`),
as the raised ValueError does. -/
def assignLoop (terminals : List Terminal) : List Consumer → Option (List Consumer)
  | [] => some []
  | c :: cs =>
      match find_nearest_terminal c terminals true with
      | none => none
      | some (t, _) =>
          match assignLoop terminals cs with
          | none => none
          | some cs' => some ({ c with assigned_terminal := some t.id } :: cs')

/-- LogisticsNetwork from src/models/network.py: the three entity
collections. -/
structure LogisticsNetwork where
  centers : List Center
  terminals : List Terminal
  consumers : List Consumer

/-- LogisticsNetwork.assign_consumers_to_terminals (src/models/network.py). -/
def LogisticsNetwork.assign_consumers_to_terminals (net : LogisticsNetwork) :
    Option LogisticsNetwork :=
  (assignLoop net.terminals net.consumers).map fun cs => { net with consumers := cs }

/-- LogisticsNetwork.get_center (src/models/network.py): the first centre;
`none` models the ValueError raised when the network has none. -/
def LogisticsNetwork.get_center (net : LogisticsNetwork) : Option Center :=
  net.centers.head?

/-- Whether some terminal of the network is active (the emptiness test of
get_active_terminals, as the deactivation analysis needs it). -/
def LogisticsNetwork.hasActiveTerminal (net : LogisticsNetwork) : Bool :=
  net.terminals.any fun t => t.is_active

/-- The consumers currently assigned to the terminal with the given id
(the list comprehension used throughout src/services/cost_calculator.py and
LogisticsNetwork.get_consumers_for_terminal). -/
def consumersFor (consumers : List Consumer) (tid : Int) : List Consumer :=
  consumers.filter fun c => c.assigned_terminal == some tid

/-- CostCalculator.calculate_terminal_fixed_costs
(src/services/cost_calculator.py): the terminal costs of the active
terminals, summed. -/
def calculate_terminal_fixed_costs (terminals : List Terminal) : ℝ :=
  ((terminals.filter fun t => t.is_active).map fun t => t.terminal_cost).sum

/-- CostCalculator.calculate_processing_costs
(src/services/cost_calculator.py): over the active terminals, the processing
cost times the total demand of the consumers assigned to the terminal. -/
def calculate_processing_costs (terminals : List Terminal)
    (consumers : List Consumer) : ℝ :=
  ((terminals.filter fun t => t.is_active).map fun t =>
    t.processing_cost * ((consumersFor consumers t.id).map fun c => c.demand).sum).sum

/-- The centre-to-terminal summand of
CostCalculator.calculate_transportation_costs for one terminal: distance from
the centre times the unit transport cost times the total assigned demand,
times the bulk factor 0.1. -/
def centerToTerminalCost (tcpu : ℝ) (center : Center) (consumers : List Consumer)
    (t : Terminal) : ℝ :=
  euclidean_distance center.pos t.pos * tcpu *
    ((consumersFor consumers t.id).map fun c => c.demand).sum * (0.1 : ℝ)

/-- The terminal-to-consumer summand of
CostCalculator.calculate_transportation_costs for one terminal: over its
assigned consumers, the distance times the unit transport cost times the
consumer's demand. -/
def terminalToConsumersCost (tcpu : ℝ) (consumers : List Consumer)
    (t : Terminal) : ℝ :=
  ((consumersFor consumers t.id).map fun c =>
    euclidean_distance t.pos c.pos * tcpu * c.demand).sum

/-- CostCalculator.calculate_transportation_costs
(src/services/cost_calculator.py): both loops skip inactive terminals and
terminals with no assigned consumer; returns (center_to_terminal,
terminal_to_consumer, their sum). -/
def calculate_transportation_costs (tcpu : ℝ) (center : Center)
    (terminals : List Terminal) (consumers : List Consumer) : ℝ × ℝ × ℝ :=
  let served := (terminals.filter fun t => t.is_active).filter fun t =>
    !(consumersFor consumers t.id).isEmpty
  let c2t := (served.map fun t => centerToTerminalCost tcpu center consumers t).sum
  let t2c := (served.map fun t => terminalToConsumersCost tcpu consumers t).sum
  (c2t, t2c, c2t + t2c)

/-- The cost-breakdown dictionary CostCalculator.calculate_total_cost
returns, one field per key. -/
structure CostBreakdown where
  fixed_costs : ℝ
  processing_costs : ℝ
  transport_center_to_terminal : ℝ
  transport_terminal_to_consumer : ℝ
  transport_total : ℝ
  total_cost : ℝ

/-- CostCalculator.calculate_total_cost (src/services/cost_calculator.py). -/
def calculate_total_cost (tcpu : ℝ) (center : Center) (terminals : List Terminal)
    (consumers : List Consumer) : CostBreakdown :=
  let fixed := calculate_terminal_fixed_costs terminals
  let processing := calculate_processing_costs terminals consumers
  let transport := calculate_transportation_costs tcpu center terminals consumers
  { fixed_costs := fixed
    processing_costs := processing
    transport_center_to_terminal := transport.1
    transport_terminal_to_consumer := transport.2.1
    transport_total := transport.2.2
    total_cost := fixed + processing + transport.2.2 }

/-- Modelled from the spec: LogisticsNetwork.calculate_costs is called
throughout the repository (both optimisers, main.py and the test scripts)
but is absent from src/models/network.py; per the spec (the Cost Model is "a
pure function of Network state" invoked on "a Network snapshot", and the
export boundary receives "the cost breakdown dictionary (the four named
components + total)") it invokes CostCalculator.calculate_total_cost on the
network's centre, terminals and consumers.  The calculator's
transport_cost_per_unit parameter is threaded explicitly; `none` models the
ValueError get_center raises on a network without a centre. -/
def LogisticsNetwork.calculate_costs (tcpu : ℝ) (net : LogisticsNetwork) :
    Option CostBreakdown :=
  net.get_center.map fun ctr => calculate_total_cost tcpu ctr net.terminals net.consumers

/-- Python float division: a zero divisor raises ZeroDivisionError, modelled
by `none`. -/
def pyDiv (a b : ℝ) : Option ℝ :=
  if b = 0 then none else some (a / b)

/-- The improvement dictionary Optimizer.get_improvement returns, one field
per key. -/
structure Improvement where
  initial_cost : ℝ
  final_cost : ℝ
  absolute_improvement : ℝ
  percentage_improvement : ℝ

/-- Optimizer.get_improvement (src/optimizers/base.py) as a function of the
two stored costs (`none` models a cost not yet set).  The outer `none` of
the result models the ZeroDivisionError of the percentage computation; the
inner `none` models the empty dictionary returned while either cost is
unset. -/
def get_improvement (initial_cost final_cost : Option ℝ) :
    Option (Option Improvement) :=
  match initial_cost, final_cost with
  | some i, some f =>
      match pyDiv (i - f) i with
      | none => none
      | some q => some (some
          { initial_cost := i
            final_cost := f
            absolute_improvement := i - f
            percentage_improvement := q * 100 })
  | _, _ => some none

/-! ## Coordinate optimiser (src/optimizers/coordinate.py)

The candidate-location set, the phase-1 relocation passes, the phase-2
deactivation sweep and CoordinateOptimizer.optimize.  The unused step_size
parameter of the Python constructor is dropped. -/

/-- In-place update of one list element (the mutation of a terminal object
held in the network's list). -/
def listModify {α : Type} (f : α → α) : ℕ → List α → List α
  | _, [] => []
  | 0, a :: as => f a :: as
  | n + 1, a :: as => a :: listModify f n as

/-- Move a terminal (terminal.x, terminal.y assignment). -/
def Terminal.setPos (t : Terminal) (p : ℝ × ℝ) : Terminal :=
  { t with x := p.1, y := p.2 }

/-- Toggle a terminal's active flag (terminal.is_active assignment). -/
def Terminal.setActive (t : Terminal) (b : Bool) : Terminal :=
  { t with is_active := b }

/-- The network after moving its i-th terminal. -/
def LogisticsNetwork.setTerminalPos (net : LogisticsNetwork) (i : ℕ) (p : ℝ × ℝ) :
    LogisticsNetwork :=
  { net with terminals := listModify (fun t => t.setPos p) i net.terminals }

/-- The network after setting the active flag of its i-th terminal. -/
def LogisticsNetwork.setTerminalActive (net : LogisticsNetwork) (i : ℕ) (b : Bool) :
    LogisticsNetwork :=
  { net with terminals := listModify (fun t => t.setActive b) i net.terminals }

/-- Python int() on a float: truncation toward zero. -/
def pyTrunc (x : ℝ) : ℤ :=
  if 0 ≤ x then ⌊x⌋ else ⌈x⌉

/-- Python range(a, b, 5): the integers a, a+5, ... below b. -/
def pyRange5 (a b : ℤ) : List ℤ :=
  (List.range ((b - a + 4) / 5).toNat).map fun k => a + 5 * k

/-- Python min of a nonempty list (`none` models the ValueError min([])
raises). -/
def listMin : List ℝ → Option ℝ
  | [] => none
  | a :: as => some (as.foldl min a)

/-- Python max of a nonempty list. -/
def listMax : List ℝ → Option ℝ
  | [] => none
  | a :: as => some (as.foldl max a)

/-- The consumer-collision test of _get_possible_locations: some consumer
lies within 0.1 of the grid point in both coordinates. -/
def nearConsumer (consumers : List Consumer) (gx gy : ℤ) : Bool :=
  consumers.any fun c =>
    decide (|c.x - (gx : ℝ)| < 0.1 ∧ |c.y - (gy : ℝ)| < 0.1)

/-- CoordinateOptimizer._get_possible_locations
(src/optimizers/coordinate.py): a 5-unit grid over the bounding box of the
consumer coordinates, grid points colliding with a consumer excluded, plus
every centre's position; `none` models the ValueError min()/max() raise on a
network without consumers.  Python collects the locations in a set and
iterates it in an unspecified order; the model keeps generation order and
duplicates, which can matter only to the tie-break among equally cheap
candidate locations — a choice the source itself leaves to the set's
iteration order. -/
def get_possible_locations (net : LogisticsNetwork) : Option (List (ℝ × ℝ)) :=
  match listMin (net.consumers.map fun c => c.x),
        listMax (net.consumers.map fun c => c.x),
        listMin (net.consumers.map fun c => c.y),
        listMax (net.consumers.map fun c => c.y) with
  | some min_x, some max_x, some min_y, some max_y =>
      let grid := (pyRange5 (pyTrunc min_x) (pyTrunc max_x + 1)).flatMap fun gx =>
        (pyRange5 (pyTrunc min_y) (pyTrunc max_y + 1)).filterMap fun gy =>
          if nearConsumer net.consumers gx gy then none
          else some ((gx : ℝ), (gy : ℝ))
      some (grid ++ net.centers.map fun ctr => (ctr.x, ctr.y))
  | _, _, _, _ => none

/-- One relocation trial of phase 1: move terminal i to loc, reassign all
consumers, return the new total cost (`none` models the propagated
ValueError of an infeasible assignment or a missing centre). -/
def trialCost (tcpu : ℝ) (net : LogisticsNetwork) (i : ℕ) (loc : ℝ × ℝ) : Option ℝ :=
  match (net.setTerminalPos i loc).assign_consumers_to_terminals with
  | none => none
  | some net2 =>
      match net2.calculate_costs tcpu with
      | none => none
      | some cb => some cb.total_cost

/-- The location loop of phase 1 for one terminal: fold over the candidate
locations keeping (best_cost, best_location), skipping the terminal's
original position.  The accumulator starts at (current_cost, original
position), as in the source. -/
def bestLocLoop (tcpu : ℝ) (net : LogisticsNetwork) (i : ℕ) (orig : ℝ × ℝ) :
    List (ℝ × ℝ) → ℝ × (ℝ × ℝ) → Option (ℝ × (ℝ × ℝ))
  | [], acc => some acc
  | loc :: rest, acc =>
      if loc = orig then bestLocLoop tcpu net i orig rest acc
      else
        match trialCost tcpu net i loc with
        | none => none
        | some c =>
            bestLocLoop tcpu net i orig rest
              (if c < acc.1 then (c, loc) else acc)

/-- The phase-1 body for the i-th terminal: inactive terminals are skipped;
an active one is placed at the best candidate location found, the consumers
are reassigned, and the running cost is lowered when the best trial
improved it. -/
def phase1Terminal (tcpu : ℝ) (locs : List (ℝ × ℝ))
    (st : LogisticsNetwork × ℝ) (i : ℕ) : Option (LogisticsNetwork × ℝ) :=
  match st.1.terminals.get? i with
  | none => some st
  | some t =>
      if t.is_active then
        match bestLocLoop tcpu st.1 i (t.x, t.y) locs (st.2, (t.x, t.y)) with
        | none => none
        | some (bc, bl) =>
            match (st.1.setTerminalPos i bl).assign_consumers_to_terminals with
            | none => none
            | some net' => some (net', if bc < st.2 then bc else st.2)
      else some st

/-- One full phase-1 pass: the terminal body applied to each index in
collection order. -/
def phase1Pass (tcpu : ℝ) (locs : List (ℝ × ℝ)) :
    List ℕ → LogisticsNetwork × ℝ → Option (LogisticsNetwork × ℝ)
  | [], st => some st
  | i :: is, st =>
      match phase1Terminal tcpu locs st i with
      | none => none
      | some st' => phase1Pass tcpu locs is st'

/-- The phase-1 while loop: full passes until the pass improvement drops
below tolerance or max_iterations passes have run; returns the network, the
running cost and the number of passes executed. -/
def phase1Loop (tcpu : ℝ) (locs : List (ℝ × ℝ)) (tolerance : ℝ) :
    ℕ → LogisticsNetwork → ℝ → ℕ → Option (LogisticsNetwork × ℝ × ℕ)
  | 0, net, cc, pn => some (net, cc, pn)
  | fuel + 1, net, cc, pn =>
      match phase1Pass tcpu locs (List.range net.terminals.length) (net, cc) with
      | none => none
      | some (net', cc') =>
          if cc - cc' < tolerance then some (net', cc', pn + 1)
          else phase1Loop tcpu locs tolerance fuel net' cc' (pn + 1)

/-- The loop of CoordinateOptimizer._try_deactivate_terminals: tentatively
deactivate each active terminal; keep the deactivation when the reassigned
network is strictly cheaper than the running cost, otherwise (and on the
caught ValueError of an infeasible reassignment) restore the flag and
reassign.  In Python the failed reassignment has already overwritten some
consumers' assignments, but the recovery pass recomputes every assignment
from the terminal state alone, so carrying the pre-failure consumers is
observationally the same.  Returns the deactivated flag and the network. -/
def tryDeactivateLoop (tcpu : ℝ) :
    List ℕ → LogisticsNetwork → ℝ → Bool → Option (Bool × LogisticsNetwork)
  | [], net, _, deact => some (deact, net)
  | i :: is, net, cc, deact =>
      match net.terminals.get? i with
      | none => tryDeactivateLoop tcpu is net cc deact
      | some t =>
          if t.is_active then
            let netOff := net.setTerminalActive i false
            match netOff.assign_consumers_to_terminals with
            | some net2 =>
                match net2.calculate_costs tcpu with
                | some cb =>
                    if cb.total_cost < cc then
                      tryDeactivateLoop tcpu is net2 cb.total_cost true
                    else
                      match (net2.setTerminalActive i true).assign_consumers_to_terminals with
                      | none => none
                      | some netR => tryDeactivateLoop tcpu is netR cc deact
                | none =>
                    match (net2.setTerminalActive i true).assign_consumers_to_terminals with
                    | none => none
                    | some netR => tryDeactivateLoop tcpu is netR cc deact
            | none =>
                match (netOff.setTerminalActive i true).assign_consumers_to_terminals with
                | none => none
                | some netR => tryDeactivateLoop tcpu is netR cc deact
          else tryDeactivateLoop tcpu is net cc deact

/-- CoordinateOptimizer._try_deactivate_terminals over the whole terminal
list (only the deactivated flag is returned to the caller; the cost the
sweep tracked internally is discarded, as in the source). -/
def try_deactivate_terminals (tcpu : ℝ) (net : LogisticsNetwork) (cc : ℝ) :
    Option (Bool × LogisticsNetwork) :=
  tryDeactivateLoop tcpu (List.range net.terminals.length) net cc false

/-- The phase-2 while loop of CoordinateOptimizer.optimize: up to 10 rounds;
after a round that deactivated something, the recomputed cost is adopted
when strictly lower, otherwise the loop stops; a round that deactivated
nothing stops it too.  Returns the network, the running cost and the number
of rounds executed. -/
def phase2Loop (tcpu : ℝ) :
    ℕ → LogisticsNetwork → ℝ → ℕ → Option (LogisticsNetwork × ℝ × ℕ)
  | 0, net, cc, k => some (net, cc, k)
  | fuel + 1, net, cc, k =>
      match try_deactivate_terminals tcpu net cc with
      | none => none
      | some (deact, net') =>
          if deact then
            match net'.calculate_costs tcpu with
            | none => none
            | some cb =>
                if cb.total_cost < cc then phase2Loop tcpu fuel net' cb.total_cost (k + 1)
                else some (net', cc, k + 1)
          else some (net', cc, k + 1)

/-- CoordinateOptimizer.optimize (src/optimizers/coordinate.py), on the
non-verbose path: initial cost, candidate locations, phase 1, phase 2, then
the improvement record (as get_improvement builds it) with the pass count;
the final network state is returned alongside.  `none` models any
uncaught exception (no consumers, no centre, no active terminal during
phase 1, or the ZeroDivisionError of the final percentage when the initial
cost is zero). -/
def coordinate_optimize (tcpu tolerance : ℝ) (max_iterations : ℕ)
    (net : LogisticsNetwork) : Option (Improvement × ℕ × LogisticsNetwork) :=
  match net.calculate_costs tcpu with
  | none => none
  | some cb0 =>
      match get_possible_locations net with
      | none => none
      | some locs =>
          match phase1Loop tcpu locs tolerance max_iterations net cb0.total_cost 0 with
          | none => none
          | some (net1, cc1, passes) =>
              match phase2Loop tcpu 10 net1 cc1 0 with
              | none => none
              | some (net2, cc2, _) =>
                  match get_improvement (some cb0.total_cost) (some cc2) with
                  | some (some r) => some (r, passes, net2)
                  | _ => none

/-! ## Genetic optimiser (src/optimizers/genetic.py)

A chromosome is the binary vector of the source, kept as a list of naturals
(each entry 0 or 1 in every reachable state).  Random draws are supplied by
oracles: a Boolean oracle stands for the outcome of a comparison
random.random() < rate, an index oracle for a random.randint / random.sample
draw.  An oracle index out of the modelled range is made harmless (getD
fall-backs, a modulus on repair indices) — the source's draws are always in
range, so every run of the source corresponds to oracles inside it. -/

/-- GeneticOptimizer._apply_chromosome, terminal-flag half: each terminal's
active flag is set from its gene, bool(gene) being gene ≠ 0.  The source
indexes the chromosome and would raise IndexError on one shorter than the
terminal list; every chromosome the optimiser builds has exactly
chromosome_length = len(terminals) genes, and the model leaves the
uncovered terminals (of an impossible short chromosome) unchanged. -/
def applyFlags : List Terminal → List ℕ → List Terminal
  | [], _ => []
  | ts, [] => ts
  | t :: ts, g :: gs => { t with is_active := decide (g ≠ 0) } :: applyFlags ts gs

/-- GeneticOptimizer._apply_chromosome (src/optimizers/genetic.py): set the
flags from the genes, then reassign every consumer. -/
def apply_chromosome (chromo : List ℕ) (net : LogisticsNetwork) :
    Option LogisticsNetwork :=
  LogisticsNetwork.assign_consumers_to_terminals { net with terminals := applyFlags net.terminals chromo }

/-- GeneticOptimizer._calculate_fitness (src/optimizers/genetic.py): an
all-zero chromosome scores 0.0 at once; otherwise the chromosome is applied
to the network and the score is 1 / (1 + total_cost).  The mutated network
is returned alongside, as the Python method leaves it applied. -/
def calculate_fitness (tcpu : ℝ) (net : LogisticsNetwork) (chromo : List ℕ) :
    Option (ℝ × LogisticsNetwork) :=
  if chromo.sum = 0 then some (0, net)
  else
    match apply_chromosome chromo net with
    | none => none
    | some net' =>
        match net'.calculate_costs tcpu with
        | none => none
        | some cb =>
            match pyDiv 1 (1 + cb.total_cost) with
            | none => none
            | some f => some (f, net')

/-- The all-zero repair used by initialisation, crossover and mutation:
force one random gene (index drawn over the chromosome length n) to 1. -/
def repairZero (n : ℕ) (rep : ℕ) (c : List ℕ) : List ℕ :=
  if c.sum = 0 then c.set (rep % n) 1 else c

/-- GeneticOptimizer._initialize_population: population_size random binary
chromosomes of length n, each repaired if all-zero.  bits j i is the drawn
bit of individual j at gene i, reps j its repair index. -/
def initialize_population (n pop_size : ℕ) (bits : ℕ → ℕ → Bool)
    (reps : ℕ → ℕ) : List (List ℕ) :=
  (List.range pop_size).map fun j =>
    repairZero n (reps j) ((List.range n).map fun i => if bits j i then 1 else 0)

/-- Python max(iterable, key=...): the first element attaining the maximal
key (a later element replaces the current best only when strictly
greater). -/
def maxByKeyFirst (key : ℕ → ℝ) : List ℕ → Option ℕ
  | [] => none
  | i :: is => some (is.foldl (fun b j => if key b < key j then j else b) i)

/-- GeneticOptimizer._tournament_selection: of the sampled indices, the
chromosome with the highest fitness (the sample itself is oracle-supplied;
the source draws 3 distinct indices below the population size, so the getD
fall-backs are never reached on a source-drawn sample). -/
def tournament_selection (population : List (List ℕ)) (fitness_values : List ℝ)
    (idxs : List ℕ) : List ℕ :=
  match maxByKeyFirst (fun i => fitness_values.getD i 0) idxs with
  | none => []
  | some b => population.getD b []

/-- The gene walk of _uniform_crossover for one child: gene i comes from the
other parent when the position's coin says swap.  The source walks
range(chromosome_length); chromosomes have exactly that length, and the
model walks the common prefix. -/
def crossoverGenes (swap : ℕ → Bool) : ℕ → List ℕ → List ℕ → List ℕ
  | _, [], _ => []
  | _, as, [] => as
  | i, a :: as, b :: bs =>
      (if swap i then b else a) :: crossoverGenes swap (i + 1) as bs

/-- GeneticOptimizer._uniform_crossover: independent per-gene swaps, then
the all-zero repair of each child. -/
def uniform_crossover (n : ℕ) (p1 p2 : List ℕ) (swap : ℕ → Bool)
    (rep1 rep2 : ℕ) : List ℕ × List ℕ :=
  (repairZero n rep1 (crossoverGenes swap 0 p1 p2),
   repairZero n rep2 (crossoverGenes swap 0 p2 p1))

/-- The gene walk of _mutate: gene i flips (1 - gene) when the position's
coin fires. -/
def mutateGenes (coin : ℕ → Bool) : ℕ → List ℕ → List ℕ
  | _, [] => []
  | i, g :: gs => (if coin i then 1 - g else g) :: mutateGenes coin (i + 1) gs

/-- GeneticOptimizer._mutate: per-gene flips, then the all-zero repair. -/
def mutate (n : ℕ) (coin : ℕ → Bool) (rep : ℕ) (c : List ℕ) : List ℕ :=
  repairZero n rep (mutateGenes coin 0 c)

/-- The random draws one offspring round consumes: the two tournament
samples, the crossover coin (the outcome of random.random() <
crossover_rate), the per-gene swap coins, the two crossover repair indices,
the two per-gene mutation coin tracks and the two mutation repair
indices. -/
structure PairRand where
  t1 : List ℕ
  t2 : List ℕ
  doCross : Bool
  swap : ℕ → Bool
  crep1 : ℕ
  crep2 : ℕ
  mcoin1 : ℕ → Bool
  mcoin2 : ℕ → Bool
  mrep1 : ℕ
  mrep2 : ℕ

/-- One offspring round of GeneticOptimizer.optimize: two tournament
selections, crossover with the round's coin (otherwise plain copies), and
the mutation of both children. -/
def offspringRound (n : ℕ) (population : List (List ℕ))
    (fitness_values : List ℝ) (pr : PairRand) : List ℕ × List ℕ :=
  let p1 := tournament_selection population fitness_values pr.t1
  let p2 := tournament_selection population fitness_values pr.t2
  let children :=
    if pr.doCross then uniform_crossover n p1 p2 pr.swap pr.crep1 pr.crep2
    else (p1, p2)
  (mutate n pr.mcoin1 pr.mrep1 children.1, mutate n pr.mcoin2 pr.mrep2 children.2)

/-- The offspring while-loop of GeneticOptimizer.optimize: rounds of
select / crossover / mutate, appending the first child and, when the
population is still short, the second.  The accumulator grows by at least
one per round, so population_size rounds of fuel always suffice. -/
def offspringLoop (n pop_size : ℕ) (population : List (List ℕ))
    (fitness_values : List ℝ) (r : ℕ → PairRand) :
    ℕ → ℕ → List (List ℕ) → List (List ℕ)
  | 0, _, acc => acc
  | fuel + 1, round, acc =>
      if acc.length < pop_size then
        let cs := offspringRound n population fitness_values (r round)
        let acc1 := acc ++ [cs.1]
        let acc2 := if acc1.length < pop_size then acc1 ++ [cs.2] else acc1
        offspringLoop n pop_size population fitness_values r fuel (round + 1) acc2
      else acc

/-- The state the generational loop of GeneticOptimizer.optimize threads:
the population with its fitness values, the best chromosome and fitness seen
so far, and the network (mutated by every fitness evaluation). -/
structure GAState where
  population : List (List ℕ)
  fitness_values : List ℝ
  best_chromosome : List ℕ
  best_fitness : ℝ
  net : LogisticsNetwork

/-- Fitness evaluation of a whole population in order, threading the
network through as the Python list comprehension does. -/
def evalPopulation (tcpu : ℝ) :
    List (List ℕ) → LogisticsNetwork → Option (List ℝ × LogisticsNetwork)
  | [], net => some ([], net)
  | c :: cs, net =>
      match calculate_fitness tcpu net c with
      | none => none
      | some (f, net') =>
          match evalPopulation tcpu cs net' with
          | none => none
          | some (fs, net'') => some (f :: fs, net'')

/-- One generation of GeneticOptimizer.optimize: the new population is the
carried-over best chromosome followed by the offspring; it is evaluated,
and the tracked best is replaced only by a strictly higher fitness. -/
def genStep (tcpu : ℝ) (n pop_size : ℕ) (r : ℕ → PairRand) (s : GAState) :
    Option GAState :=
  let newPop :=
    offspringLoop n pop_size s.population s.fitness_values r pop_size 0
      [s.best_chromosome]
  match evalPopulation tcpu newPop s.net with
  | none => none
  | some (fs, net') =>
      match maxByKeyFirst (fun i => fs.getD i 0) (List.range newPop.length) with
      | none => none
      | some bi =>
          if s.best_fitness < fs.getD bi 0 then
            some { population := newPop, fitness_values := fs,
                   best_chromosome := newPop.getD bi [],
                   best_fitness := fs.getD bi 0, net := net' }
          else
            some { population := newPop, fitness_values := fs,
                   best_chromosome := s.best_chromosome,
                   best_fitness := s.best_fitness, net := net' }

/-- The generational for-loop: generations iterations of genStep, the
oracle gr g supplying generation g's draws. -/
def gaLoop (tcpu : ℝ) (n pop_size : ℕ) (gr : ℕ → ℕ → PairRand) :
    ℕ → ℕ → GAState → Option GAState
  | 0, _, s => some s
  | fuel + 1, g, s =>
      match genStep tcpu n pop_size (gr g) s with
      | none => none
      | some s' => gaLoop tcpu n pop_size gr fuel (g + 1) s'

/-- GeneticOptimizer.optimize (src/optimizers/genetic.py), on the
non-verbose path: initial cost, random initial population, its evaluation
and first best, the generational loop, then the best chromosome is applied,
the final cost read off and the improvement record returned with the final
network.  `none` models any uncaught exception (no centre, a population of
size zero — Python's max over an empty range — or the ZeroDivisionError of
the final percentage when the initial cost is zero). -/
def genetic_optimize (tcpu : ℝ) (pop_size generations : ℕ)
    (bits : ℕ → ℕ → Bool) (reps : ℕ → ℕ) (gr : ℕ → ℕ → PairRand)
    (net : LogisticsNetwork) : Option (Improvement × LogisticsNetwork) :=
  match net.calculate_costs tcpu with
  | none => none
  | some cb0 =>
      let n := net.terminals.length
      let pop0 := initialize_population n pop_size bits reps
      match evalPopulation tcpu pop0 net with
      | none => none
      | some (fs0, net0) =>
          match maxByKeyFirst (fun i => fs0.getD i 0) (List.range pop0.length) with
          | none => none
          | some bi =>
              let s0 : GAState :=
                { population := pop0, fitness_values := fs0,
                  best_chromosome := pop0.getD bi [],
                  best_fitness := fs0.getD bi 0, net := net0 }
              match gaLoop tcpu n pop_size gr generations 0 s0 with
              | none => none
              | some sF =>
                  match apply_chromosome sF.best_chromosome sF.net with
                  | none => none
                  | some netF =>
                      match netF.calculate_costs tcpu with
                      | none => none
                      | some cbF =>
                          match get_improvement (some cb0.total_cost) (some cbF.total_cost) with
                          | some (some r) => some (r, netF)
                          | _ => none

/-! ## Geometry of a network (what the optimisers never change) -/

/-- The fields of a terminal other than its active flag. -/
def Terminal.geom (t : Terminal) : Int × ℝ × ℝ × ℝ × ℝ :=
  (t.id, t.x, t.y, t.terminal_cost, t.processing_cost)

/-- The fields of a consumer other than its assigned terminal. -/
def Consumer.geom (c : Consumer) : Int × ℝ × ℝ × ℝ :=
  (c.id, c.x, c.y, c.demand)

/-- Two networks that differ at most in terminal active flags and consumer
assignments (the only fields the genetic optimiser's trials touch). -/
def sameShape (a b : LogisticsNetwork) : Prop :=
  a.centers = b.centers ∧
    a.terminals.map Terminal.geom = b.terminals.map Terminal.geom ∧
    a.consumers.map Consumer.geom = b.consumers.map Consumer.geom

/-- The chromosomes reachable in a run: full length, or the empty list a
degenerate tournament oracle can produce. -/
def chromOk (n : ℕ) (c : List ℕ) : Prop :=
  c.length = n ∨ c = []

/-- The invariant the generational loop maintains: the threaded network
differs from the base network only in flags and assignments, every
population member is a reachable chromosome, and the tracked best
chromosome really has the tracked (positive) best fitness. -/
def GAInv (tcpu : ℝ) (base : LogisticsNetwork) (n : ℕ) (s : GAState) : Prop :=
  sameShape base s.net ∧
    (∀ x ∈ s.population, chromOk n x) ∧
    chromOk n s.best_chromosome ∧
    (calculate_fitness tcpu base s.best_chromosome).map Prod.fst =
      some s.best_fitness ∧
    0 < s.best_fitness

/-! ## Specification predicates and nonnegativity of the cost data -/

/-- What find_nearest_terminal returns for every consumer of a network with
an active terminal: an active terminal of the network at minimal Euclidean
distance, and the first such terminal of the eligible collection (every
earlier eligible terminal is strictly farther). -/
def NearestSpec (net : LogisticsNetwork) : Prop :=
  ∀ c : Consumer, ∃ t d pre post,
    find_nearest_terminal c net.terminals true = some (t, d) ∧
    availableTerminals net.terminals true = pre ++ t :: post ∧
    t.is_active = true ∧ t ∈ net.terminals ∧
    d = euclidean_distance c.pos t.pos ∧
    (∀ u ∈ pre, euclidean_distance c.pos t.pos < euclidean_distance c.pos u.pos) ∧
    (∀ u ∈ net.terminals, u.is_active = true →
      euclidean_distance c.pos t.pos ≤ euclidean_distance c.pos u.pos)

/-- What assign_consumers_to_terminals produces on a network with an active
terminal: it succeeds, touches only the consumers' assigned-terminal
fields, and assigns each consumer the id of an active terminal no farther
than any other active terminal. -/
def AssignSpec (net : LogisticsNetwork) : Prop :=
  ∃ net', net.assign_consumers_to_terminals = some net' ∧
    net'.centers = net.centers ∧ net'.terminals = net.terminals ∧
    List.Forall₂ (fun c c' => ∃ t, t ∈ net.terminals ∧ t.is_active = true ∧
        c' = { c with assigned_terminal := some t.id } ∧
        ∀ u ∈ net.terminals, u.is_active = true →
          euclidean_distance c.pos t.pos ≤ euclidean_distance c.pos u.pos)
      net.consumers net'.consumers

/-- Nonnegative cost data: the transport rate, the terminal costs and the
demands are all nonnegative (the loader's validation guarantees this for
every network the optimisers see). -/
def NonnegSetup (tcpu : ℝ) (net : LogisticsNetwork) : Prop :=
  0 ≤ tcpu ∧ (∀ t ∈ net.terminals, 0 ≤ t.terminal_cost ∧ 0 ≤ t.processing_cost) ∧
    ∀ c ∈ net.consumers, 0 ≤ c.demand

/-- The total cost a chromosome induces: apply it to the network and read
the cost model's total (the quantity the genetic fitness is computed
from). -/
def configCost (tcpu : ℝ) (net : LogisticsNetwork) (chromo : List ℕ) : Option ℝ :=
  match apply_chromosome chromo net with
  | none => none
  | some net' => (net'.calculate_costs tcpu).map fun cb => cb.total_cost

/-! ## Concrete fixtures used by the witnesses and counterexamples -/

/-- A one-terminal network with every element at the origin: centre 0,
terminal 0 (terminal cost 2, processing cost 0, active) and consumer 1
(demand 1) already assigned to terminal 0. -/
def cnetA : LogisticsNetwork :=
  { centers := [⟨0, 0, 0⟩],
    terminals := [⟨0, 0, 0, 2, 0, true⟩],
    consumers := [⟨1, 0, 0, 1, some 0⟩] }

/-- The cost breakdown of cnetA at unit transport cost 1. -/
def cbA : CostBreakdown := ⟨2, 0, 0, 0, 0, 2⟩

/-- The improvement record of the coordinate run on cnetA. -/
def impA : Improvement := ⟨2, 2, 0, 0⟩

/-- A two-terminal network: centre 0 at the origin, terminal 0 at the
origin and terminal 1 at (3, 4) (both of terminal cost 1, processing cost
0, active), consumer 2 at the origin (demand 1) assigned to terminal 0. -/
def cnetB : LogisticsNetwork :=
  { centers := [⟨0, 0, 0⟩],
    terminals := [⟨0, 0, 0, 1, 0, true⟩, ⟨1, 3, 4, 1, 0, true⟩],
    consumers := [⟨2, 0, 0, 1, some 0⟩] }

/-- cnetB after applying chromosome [0, 1]: terminal 0 closed, the consumer
reassigned to terminal 1. -/
def cnetB' : LogisticsNetwork :=
  { centers := [⟨0, 0, 0⟩],
    terminals := [⟨0, 0, 0, 1, 0, false⟩, ⟨1, 3, 4, 1, 0, true⟩],
    consumers := [⟨2, 0, 0, 1, some 1⟩] }

/-- The cost breakdown of cnetB' at unit transport cost 1: only terminal 1
is open, 5 units from both centre and consumer. -/
def cbB' : CostBreakdown := ⟨1, 0, 1 / 2, 5, 11 / 2, 13 / 2⟩

/-- The improvement record of the genetic run on cnetB with chromosome
[0, 1]: the final cost 13/2 exceeds the initial cost 2. -/
def impB : Improvement := ⟨2, 13 / 2, -(9 / 2), -225⟩

/-- A bit oracle whose every individual is the chromosome [0, 1]. -/
def bitsB : ℕ → ℕ → Bool := fun _ i => decide (i = 1)

/-- A trivial repair-index oracle. -/
def repsB : ℕ → ℕ := fun _ => 0

/-- A trivial offspring-round oracle (no crossover, no swaps, no
mutation). -/
def pr0 : PairRand :=
  ⟨[], [], false, fun _ => false, 0, 0, fun _ => false, fun _ => false, 0, 0⟩

/-- The per-generation oracle built from pr0. -/
def grB : ℕ → ℕ → PairRand := fun _ _ => pr0

/-- The round oracle built from pr0 for a single generation step. -/
def grW : ℕ → PairRand := fun _ => pr0

/-- A one-chromosome genetic state over cnetA: population [[1]] of fitness
1/3, best chromosome [1] of best fitness 1/3. -/
def sW : GAState := ⟨[[1]], [1 / 3], [1], 1 / 3, cnetA⟩

/-! ## General list lemmas -/

/-- Dropping a filter under a sum whose terms vanish off the filter. -/
theorem sum_map_filter_of_vanish {α : Type} (p : α → Bool) (f : α → ℝ) :
    ∀ l : List α, (∀ x ∈ l, p x = false → f x = 0) →
      ((l.filter p).map f).sum = (l.map f).sum := by
  intro l
  induction l with
  | nil => intro _; rfl
  | cons a as ih =>
      intro h
      have hrest := ih fun x hx hpx => h x (List.mem_cons_of_mem a hx) hpx
      cases hpa : p a with
      | true => simp [List.filter_cons, hpa, hrest]
      | false =>
          have hz : f a = 0 := h a (List.mem_cons_self a as) hpa
          simp [List.filter_cons, hpa, hrest, hz]

/-! ## C1: the cost breakdown decomposes exactly -/

/-- C1: for every network data, calculate_total_cost returns a breakdown
whose total_cost is exactly fixed_costs + processing_costs +
transport_center_to_terminal + transport_terminal_to_consumer, the fixed
costs being the summed terminal_cost of the active terminals, the
processing costs the summed processing_cost times assigned demand of the
active terminals, the centre-to-terminal transport the sum over active
terminals with at least one assigned consumer of distance times unit
transport cost times assigned demand times 0.1, and the
terminal-to-consumer transport the sum over all (active terminal, assigned
consumer) pairs of distance times unit transport cost times demand. -/
theorem c1_total_cost_decomposition (tcpu : ℝ) (center : Center)
    (terminals : List Terminal) (consumers : List Consumer) :
    let cb := calculate_total_cost tcpu center terminals consumers
    cb.total_cost = cb.fixed_costs + cb.processing_costs +
        cb.transport_center_to_terminal + cb.transport_terminal_to_consumer ∧
    cb.fixed_costs =
      ((terminals.filter fun t => t.is_active).map fun t => t.terminal_cost).sum ∧
    cb.processing_costs =
      ((terminals.filter fun t => t.is_active).map fun t =>
        t.processing_cost * ((consumersFor consumers t.id).map fun c => c.demand).sum).sum ∧
    cb.transport_center_to_terminal =
      (((terminals.filter fun t => t.is_active).filter fun t =>
          !(consumersFor consumers t.id).isEmpty).map fun t =>
        euclidean_distance center.pos t.pos * tcpu *
          ((consumersFor consumers t.id).map fun c => c.demand).sum * (0.1 : ℝ)).sum ∧
    cb.transport_terminal_to_consumer =
      ((terminals.filter fun t => t.is_active).map fun t =>
        ((consumersFor consumers t.id).map fun c =>
          euclidean_distance t.pos c.pos * tcpu * c.demand).sum).sum := by
  refine ⟨?_, rfl, rfl, rfl, ?_⟩
  · show calculate_terminal_fixed_costs terminals +
        calculate_processing_costs terminals consumers + _ = _
    simp only [calculate_total_cost, calculate_transportation_costs]
    ring
  · show (calculate_transportation_costs tcpu center terminals consumers).2.1 = _
    simp only [calculate_transportation_costs]
    exact sum_map_filter_of_vanish _ _ _ fun t _ hf => by
      have : consumersFor consumers t.id = [] := by
        simpa [List.isEmpty_iff] using hf
      simp [terminalToConsumersCost, this]

/-! ## C9 and C10: get_improvement -/

/-- C9 counterexample: with both costs set and the initial cost zero,
get_improvement does not return a record at all — the percentage division
raises ZeroDivisionError (modelled by `none`), against the claim that a
record is returned whenever both costs are set. -/
theorem c9_counterexample_zero_initial :
    get_improvement (some 0) (some 0) = none := by
  simp [get_improvement, pyDiv]

/-- C9 amended: get_improvement returns the empty record whenever either
cost is unset, and otherwise — provided the initial cost is nonzero —
returns exactly the record {initial_cost, final_cost, absolute_improvement
= initial − final, percentage_improvement = absolute / initial × 100}. -/
theorem c9_amended_get_improvement (ic fc : Option ℝ) :
    ((ic = none ∨ fc = none) → get_improvement ic fc = some none) ∧
    (∀ i f : ℝ, ic = some i → fc = some f → i ≠ 0 →
      get_improvement ic fc = some (some
        { initial_cost := i, final_cost := f,
          absolute_improvement := i - f,
          percentage_improvement := (i - f) / i * 100 })) := by
  constructor
  · rintro (rfl | rfl)
    · rfl
    · cases ic <;> rfl
  · rintro i f rfl rfl hi
    simp [get_improvement, pyDiv, hi]

/-- C9 witness: the amended statement applied at an unset pair and at the
set pair (2, 1). -/
theorem c9_witness_get_improvement :
    get_improvement none (some (5 : ℝ)) = some none ∧
    get_improvement (some (2 : ℝ)) (some (1 : ℝ)) = some (some
      { initial_cost := (2 : ℝ), final_cost := 1,
        absolute_improvement := 2 - 1,
        percentage_improvement := (2 - 1) / 2 * 100 }) :=
  ⟨(c9_amended_get_improvement none (some 5)).1 (Or.inl rfl),
   (c9_amended_get_improvement (some 2) (some 1)).2 2 1 rfl rfl (by norm_num)⟩

/-- C10: get_improvement raises (returns `none`) exactly when both costs
are set and the initial cost is zero; with a nonzero initial cost or either
cost unset the call completes without error. -/
theorem c10_get_improvement_raises_iff (ic fc : Option ℝ) :
    get_improvement ic fc = none ↔ ic = some 0 ∧ fc.isSome = true := by
  cases ic with
  | none => simp [get_improvement]
  | some i =>
      cases fc with
      | none => simp [get_improvement]
      | some f =>
          by_cases hi : i = 0
          · subst hi; simp [get_improvement, pyDiv]
          · simp [get_improvement, pyDiv, hi]

/-! ## C2: the nearest-terminal query and the reassignment pass -/

/-- The accumulator invariant of the nearest-terminal loop: starting from a
candidate at its true distance, the loop returns a terminal at its true
distance, no farther than the candidate or any walked terminal, and either
the candidate itself or the first strictly-closer terminal of the rest. -/
theorem nearestLoop_some_spec (c : Consumer) :
    ∀ (l : List Terminal) (b : Terminal) (db : ℝ),
      db = euclidean_distance c.pos b.pos →
      ∃ t d, nearestLoop c l (some (b, db)) = some (t, d) ∧
        d = euclidean_distance c.pos t.pos ∧ d ≤ db ∧
        (∀ u ∈ l, d ≤ euclidean_distance c.pos u.pos) ∧
        ((t = b ∧ d = db) ∨
          ∃ pre post, l = pre ++ t :: post ∧ d < db ∧
            ∀ u ∈ pre, d < euclidean_distance c.pos u.pos) := by
  intro l
  induction l with
  | nil =>
      intro b db hdb
      exact ⟨b, db, rfl, hdb, le_refl _, by simp, Or.inl ⟨rfl, rfl⟩⟩
  | cons hd tl ih =>
      intro b db hdb
      by_cases hlt : euclidean_distance c.pos hd.pos < db
      · obtain ⟨t, d, hres, hdist, hle, hall, hcase⟩ :=
          ih hd (euclidean_distance c.pos hd.pos) rfl
        refine ⟨t, d, ?_, hdist, hle.trans hlt.le, ?_, ?_⟩
        · show (if euclidean_distance c.pos hd.pos < db then
              nearestLoop c tl (some (hd, euclidean_distance c.pos hd.pos))
            else nearestLoop c tl (some (b, db))) = some (t, d)
          rw [if_pos hlt]; exact hres
        · intro u hu
          rcases List.mem_cons.mp hu with rfl | hu
          · exact hle
          · exact hall u hu
        · rcases hcase with ⟨rfl, hd2⟩ | ⟨pre, post, hsplit, hlt2, hpre⟩
          · exact Or.inr ⟨[], tl, rfl, hd2 ▸ hlt, by simp⟩
          · refine Or.inr ⟨hd :: pre, post, by simp [hsplit], lt_trans hlt2 hlt, ?_⟩
            intro u hu
            rcases List.mem_cons.mp hu with rfl | hu
            · exact hlt2
            · exact hpre u hu
      · obtain ⟨t, d, hres, hdist, hle, hall, hcase⟩ := ih b db hdb
        have hge : db ≤ euclidean_distance c.pos hd.pos := not_lt.mp hlt
        refine ⟨t, d, ?_, hdist, hle, ?_, ?_⟩
        · show (if euclidean_distance c.pos hd.pos < db then
              nearestLoop c tl (some (hd, euclidean_distance c.pos hd.pos))
            else nearestLoop c tl (some (b, db))) = some (t, d)
          rw [if_neg hlt]; exact hres
        · intro u hu
          rcases List.mem_cons.mp hu with rfl | hu
          · exact hle.trans hge
          · exact hall u hu
        · rcases hcase with hleft | ⟨pre, post, hsplit, hlt2, hpre⟩
          · exact Or.inl hleft
          · refine Or.inr ⟨hd :: pre, post, by simp [hsplit], hlt2, ?_⟩
            intro u hu
            rcases List.mem_cons.mp hu with rfl | hu
            · exact lt_of_lt_of_le hlt2 hge
            · exact hpre u hu

/-- The nearest-terminal loop never loses its candidate. -/
theorem nearestLoop_isSome (c : Consumer) :
    ∀ (l : List Terminal) (p : Terminal × ℝ),
      (nearestLoop c l (some p)).isSome = true := by
  intro l
  induction l with
  | nil => intro p; rfl
  | cons hd tl ih =>
      intro p
      show (if euclidean_distance c.pos hd.pos < p.2 then
          nearestLoop c tl (some (hd, euclidean_distance c.pos hd.pos))
        else nearestLoop c tl (some (p.1, p.2))).isSome = true
      by_cases hlt : euclidean_distance c.pos hd.pos < p.2
      · rw [if_pos hlt]; exact ih _
      · rw [if_neg hlt]; exact ih _

/-- find_nearest_terminal on a nonempty eligible collection: the result is
the first eligible terminal at minimal distance, reported with its true
distance. -/
theorem find_nearest_spec (c : Consumer) (terminals : List Terminal) (ao : Bool)
    (h : availableTerminals terminals ao ≠ []) :
    ∃ t d pre post, find_nearest_terminal c terminals ao = some (t, d) ∧
      availableTerminals terminals ao = pre ++ t :: post ∧
      d = euclidean_distance c.pos t.pos ∧
      (∀ u ∈ pre, d < euclidean_distance c.pos u.pos) ∧
      (∀ u ∈ availableTerminals terminals ao,
        d ≤ euclidean_distance c.pos u.pos) := by
  rcases havail : availableTerminals terminals ao with _ | ⟨a, rest⟩
  · exact absurd havail h
  obtain ⟨t, d, hres, hdist, hle, hall, hcase⟩ :=
    nearestLoop_some_spec c rest a (euclidean_distance c.pos a.pos) rfl
  have hrun : find_nearest_terminal c terminals ao = some (t, d) := by
    unfold find_nearest_terminal
    rw [havail]
    exact hres
  rcases hcase with ⟨rfl, hd2⟩ | ⟨pre, post, hsplit, hlt2, hpre⟩
  · refine ⟨t, d, [], rest, hrun, by simp, hdist, by simp, ?_⟩
    intro u hu
    rcases List.mem_cons.mp hu with rfl | hu
    · exact le_of_eq hd2
    · exact hall u hu
  · refine ⟨t, d, a :: pre, post, hrun, by simp [hsplit], hdist, ?_, ?_⟩
    · intro u hu
      rcases List.mem_cons.mp hu with rfl | hu
      · exact hlt2
      · exact hpre u hu
    · intro u hu
      rcases List.mem_cons.mp hu with rfl | hu
      · exact hle
      · exact hall u hu

/-- find_nearest_terminal fails exactly on an empty eligible collection
(the first half of C6). -/
theorem find_nearest_none_iff (c : Consumer) (terminals : List Terminal) (ao : Bool) :
    find_nearest_terminal c terminals ao = none ↔
      availableTerminals terminals ao = [] := by
  constructor
  · intro hnone
    rcases havail : availableTerminals terminals ao with _ | ⟨a, rest⟩
    · rfl
    · exfalso
      have hsome := nearestLoop_isSome c rest (a, euclidean_distance c.pos a.pos)
      have : find_nearest_terminal c terminals ao =
          nearestLoop c rest (some (a, euclidean_distance c.pos a.pos)) := by
        unfold find_nearest_terminal
        rw [havail]
        rfl
      rw [this] at hnone
      rw [hnone] at hsome
      exact Bool.false_ne_true hsome
  · intro hempty
    unfold find_nearest_terminal
    rw [hempty]
    rfl

/-- The assignment pass succeeds on a nonempty eligible collection and
rewrites exactly the assigned-terminal field of each consumer to a nearest
active terminal's id. -/
theorem assignLoop_spec (ts : List Terminal)
    (h : availableTerminals ts true ≠ []) :
    ∀ cs : List Consumer, ∃ cs', assignLoop ts cs = some cs' ∧
      List.Forall₂ (fun c c' => ∃ t, t ∈ ts ∧ t.is_active = true ∧
          c' = { c with assigned_terminal := some t.id } ∧
          ∀ u ∈ ts, u.is_active = true →
            euclidean_distance c.pos t.pos ≤ euclidean_distance c.pos u.pos)
        cs cs' := by
  intro cs
  induction cs with
  | nil => exact ⟨[], rfl, List.Forall₂.nil⟩
  | cons c cs ih =>
      obtain ⟨cs', hrun, hall⟩ := ih
      obtain ⟨t, d, pre, post, hres, hsplit, hdist, _, hmin⟩ := find_nearest_spec c ts true h
      refine ⟨{ c with assigned_terminal := some t.id } :: cs', ?_, ?_⟩
      · show (match find_nearest_terminal c ts true with
          | none => none
          | some (t, _) =>
              match assignLoop ts cs with
              | none => none
              | some cs' =>
                  some ({ c with assigned_terminal := some t.id } :: cs')) = _
        rw [hres, hrun]
      · have htmem : t ∈ availableTerminals ts true := by
          rw [hsplit]; exact List.mem_append_right _ (List.mem_cons_self t _)
        have htmem' : t ∈ ts ∧ t.is_active = true := by
          have := htmem
          unfold availableTerminals at this
          rw [if_pos rfl] at this
          exact ⟨(List.mem_filter.mp this).1, (List.mem_filter.mp this).2⟩
        refine List.Forall₂.cons ⟨t, htmem'.1, htmem'.2, rfl, ?_⟩ hall
        intro u hu hua
        have humem : u ∈ availableTerminals ts true := by
          unfold availableTerminals
          rw [if_pos rfl]
          exact List.mem_filter.mpr ⟨hu, hua⟩
        have hbound := hmin u humem
        rwa [hdist] at hbound

end

/-- C2: on a network with at least one active terminal, the
nearest-terminal query returns, for every consumer, an active terminal of
minimal Euclidean distance — the first such terminal in collection order —
and the reassignment pass therefore leaves every consumer assigned to the
id of an active terminal no other active terminal is strictly closer
than. -/
theorem c2_nearest_and_assignment (net : LogisticsNetwork)
    (h : net.hasActiveTerminal = true) : NearestSpec net ∧ AssignSpec net := by
  have havail : availableTerminals net.terminals true ≠ [] := by
    unfold availableTerminals
    rw [if_pos rfl]
    intro hempty
    unfold LogisticsNetwork.hasActiveTerminal at h
    obtain ⟨t, htmem, hta⟩ := List.any_eq_true.mp h
    exact List.ne_nil_of_mem (List.mem_filter.mpr ⟨htmem, hta⟩) hempty
  constructor
  · intro c
    obtain ⟨t, d, pre, post, hres, hsplit, hdist, hpre, hmin⟩ :=
      find_nearest_spec c net.terminals true havail
    have htmem : t ∈ availableTerminals net.terminals true := by
      rw [hsplit]
      exact List.mem_append_right _ (List.mem_cons_self t _)
    have ht' : t ∈ net.terminals ∧ t.is_active = true := by
      unfold availableTerminals at htmem
      rw [if_pos rfl] at htmem
      exact ⟨(List.mem_filter.mp htmem).1, (List.mem_filter.mp htmem).2⟩
    refine ⟨t, d, pre, post, hres, hsplit, ht'.2, ht'.1, hdist, ?_, ?_⟩
    · intro u hu
      have := hpre u hu
      rwa [hdist] at this
    · intro u hu hua
      have humem : u ∈ availableTerminals net.terminals true := by
        unfold availableTerminals
        rw [if_pos rfl]
        exact List.mem_filter.mpr ⟨hu, hua⟩
      have := hmin u humem
      rwa [hdist] at this
  · obtain ⟨cs', hrun, hall⟩ := assignLoop_spec net.terminals havail net.consumers
    refine ⟨{ net with consumers := cs' }, ?_, rfl, rfl, hall⟩
    unfold LogisticsNetwork.assign_consumers_to_terminals
    rw [hrun]
    rfl

/-- C2 witness: the specification instantiated at the concrete two-terminal
network cnetB (both terminals active). -/
theorem c2_witness_cnetB : NearestSpec cnetB ∧ AssignSpec cnetB :=
  c2_nearest_and_assignment cnetB rfl

/-! ## Structural lemmas about the network operations -/

/-- A nonempty active filter from a positive any-test. -/
theorem avail_ne_nil_of_any_active (ts : List Terminal)
    (h : (ts.any fun t => t.is_active) = true) :
    availableTerminals ts true ≠ [] := by
  unfold availableTerminals
  rw [if_pos rfl]
  intro hempty
  obtain ⟨t, htmem, hta⟩ := List.any_eq_true.mp h
  exact List.ne_nil_of_mem (List.mem_filter.mpr ⟨htmem, hta⟩) hempty

/-- Reassignment succeeds whenever some terminal is active. -/
theorem assign_isSome_of_hasActive (net : LogisticsNetwork)
    (h : net.hasActiveTerminal = true) :
    (net.assign_consumers_to_terminals).isSome = true := by
  obtain ⟨cs', hrun, -⟩ :=
    assignLoop_spec net.terminals (avail_ne_nil_of_any_active net.terminals h)
      net.consumers
  unfold LogisticsNetwork.assign_consumers_to_terminals
  rw [hrun]
  rfl

/-- Reassignment never changes the terminal or centre collections. -/
theorem assign_preserves_frame (net net' : LogisticsNetwork)
    (h : net.assign_consumers_to_terminals = some net') :
    net'.terminals = net.terminals ∧ net'.centers = net.centers := by
  unfold LogisticsNetwork.assign_consumers_to_terminals at h
  cases hrun : assignLoop net.terminals net.consumers with
  | none => rw [hrun] at h; exact absurd h (by simp)
  | some cs' =>
      rw [hrun] at h
      have h' : { net with consumers := cs' } = net' := Option.some.inj h
      rw [← h']
      exact ⟨rfl, rfl⟩

/-- The assignment loop keeps the number of consumers. -/
theorem assignLoop_length (ts : List Terminal) :
    ∀ (cs cs' : List Consumer), assignLoop ts cs = some cs' →
      cs'.length = cs.length := by
  intro cs
  induction cs with
  | nil =>
      intro cs' h
      have h' : [] = cs' := Option.some.inj h
      rw [← h']
  | cons c rest ih =>
      intro cs' h
      rw [show assignLoop ts (c :: rest) =
          (match find_nearest_terminal c ts true with
          | none => none
          | some (t, _) =>
              match assignLoop ts rest with
              | none => none
              | some cs' =>
                  some ({ c with assigned_terminal := some t.id } :: cs')) from rfl] at h
      cases hfind : find_nearest_terminal c ts true with
      | none => rw [hfind] at h; exact absurd h (by simp)
      | some p =>
          rw [hfind] at h
          cases hrun : assignLoop ts rest with
          | none =>
              rw [hrun] at h
              obtain ⟨t, d⟩ := p
              exact absurd h (by simp)
          | some rest' =>
              rw [hrun] at h
              obtain ⟨t, d⟩ := p
              have h' := Option.some.inj h
              rw [← h']
              simp [ih rest' hrun]

/-- Reassignment keeps the number of consumers. -/
theorem assign_preserves_consumers_length (net net' : LogisticsNetwork)
    (h : net.assign_consumers_to_terminals = some net') :
    net'.consumers.length = net.consumers.length := by
  unfold LogisticsNetwork.assign_consumers_to_terminals at h
  cases hrun : assignLoop net.terminals net.consumers with
  | none => rw [hrun] at h; exact absurd h (by simp)
  | some cs' =>
      rw [hrun] at h
      have h' : { net with consumers := cs' } = net' := Option.some.inj h
      rw [← h']
      exact assignLoop_length net.terminals net.consumers cs' hrun

/-- A successful reassignment of a nonempty consumer collection needs an
active terminal. -/
theorem assign_some_hasActive (net net' : LogisticsNetwork)
    (hc : net.consumers ≠ []) (h : net.assign_consumers_to_terminals = some net') :
    net.hasActiveTerminal = true := by
  rcases hcs : net.consumers with _ | ⟨c, rest⟩
  · exact absurd hcs hc
  unfold LogisticsNetwork.assign_consumers_to_terminals at h
  cases hrun : assignLoop net.terminals net.consumers with
  | none => rw [hrun] at h; exact absurd h (by simp)
  | some cs' =>
      rw [hcs] at hrun
      rw [show assignLoop net.terminals (c :: rest) =
          (match find_nearest_terminal c net.terminals true with
          | none => none
          | some (t, _) =>
              match assignLoop net.terminals rest with
              | none => none
              | some cs' =>
                  some ({ c with assigned_terminal := some t.id } :: cs')) from rfl] at hrun
      cases hfind : find_nearest_terminal c net.terminals true with
      | none => rw [hfind] at hrun; exact absurd hrun (by simp)
      | some p =>
          rcases hav : availableTerminals net.terminals true with _ | ⟨a, arest⟩
          · rw [(find_nearest_none_iff c net.terminals true).mpr hav] at hfind
            exact absurd hfind (by simp)
          · have hamem : a ∈ availableTerminals net.terminals true := by
              rw [hav]; exact List.mem_cons_self a arest
            unfold availableTerminals at hamem
            rw [if_pos rfl] at hamem
            exact List.any_eq_true.mpr
              ⟨a, (List.mem_filter.mp hamem).1, (List.mem_filter.mp hamem).2⟩

/-- Reading back an in-place list update at its own index. -/
theorem listModify_get? {α : Type} (f : α → α) :
    ∀ (i : ℕ) (l : List α), (listModify f i l).get? i = (l.get? i).map f := by
  intro i
  induction i with
  | zero =>
      intro l
      cases l with
      | nil => rfl
      | cons a as => rfl
  | succ n ih =>
      intro l
      cases l with
      | nil => rfl
      | cons a as =>
          show (listModify f (n + 1) (a :: as)).get? (n + 1) = (as.get? n).map f
          simp only [listModify]
          rw [← ih as]
          rfl

/-- Reactivating the i-th terminal of a list with a valid i-th entry leaves
an active terminal. -/
theorem setActiveTrue_any (ts : List Terminal) (i : ℕ) (t : Terminal)
    (h : ts.get? i = some t) :
    ((listModify (fun u => u.setActive true) i ts).any fun u => u.is_active) = true := by
  have hget : (listModify (fun u => u.setActive true) i ts).get? i =
      some (t.setActive true) := by
    rw [listModify_get? _ i ts, h]
    rfl
  have hmem := List.get?_mem hget
  exact List.any_eq_true.mpr ⟨t.setActive true, hmem, rfl⟩

/-- setTerminalActive with `true` restores an active terminal (network
form). -/
theorem setTerminalActive_true_hasActive (net : LogisticsNetwork) (i : ℕ)
    (t : Terminal) (h : net.terminals.get? i = some t) :
    (net.setTerminalActive i true).hasActiveTerminal = true := by
  unfold LogisticsNetwork.setTerminalActive LogisticsNetwork.hasActiveTerminal
  exact setActiveTrue_any net.terminals i t h

/-- Equal lengths transport nonemptiness. -/
theorem ne_nil_of_length_eq {α β : Type} (l : List α) (m : List β)
    (h : l.length = m.length) (hm : m ≠ []) : l ≠ [] := by
  intro hl
  rw [hl] at h
  exact hm (List.eq_nil_of_length_eq_zero h.symm)

/-- The deactivation sweep always terminates normally: the infeasible
reassignment of a tentative deactivation is caught, the flag is restored
and reassignment over the restored (hence nonempty-active) terminal
collection succeeds.  Whenever the input network has a consumer and an
active terminal, so has the returned one. -/
theorem tryDeactivateLoop_spec (tcpu : ℝ) :
    ∀ (l : List ℕ) (net : LogisticsNetwork) (cc : ℝ) (deact : Bool),
      ∃ out, tryDeactivateLoop tcpu l net cc deact = some out ∧
        (net.consumers ≠ [] → net.hasActiveTerminal = true →
          out.2.hasActiveTerminal = true ∧ out.2.consumers ≠ []) := by
  intro l
  induction l with
  | nil =>
      intro net cc deact
      exact ⟨(deact, net), rfl, fun hc ha => ⟨ha, hc⟩⟩
  | cons i is ih =>
      intro net cc deact
      cases hget : net.terminals.get? i with
      | none =>
          obtain ⟨out, hout, hpres⟩ := ih net cc deact
          refine ⟨out, ?_, hpres⟩
          simp only [tryDeactivateLoop, hget]
          exact hout
      | some t =>
          cases hact : t.is_active with
          | false =>
              obtain ⟨out, hout, hpres⟩ := ih net cc deact
              refine ⟨out, ?_, hpres⟩
              simp only [tryDeactivateLoop, hget, hact]
              exact hout
          | true =>
              have hoffget : (net.setTerminalActive i false).terminals.get? i =
                  some (t.setActive false) := by
                unfold LogisticsNetwork.setTerminalActive
                show (listModify (fun u => u.setActive false) i net.terminals).get? i = _
                rw [listModify_get? _ i net.terminals, hget]
                rfl
              cases hassign : (net.setTerminalActive i false).assign_consumers_to_terminals with
              | none =>
                  have hrevAct : ((net.setTerminalActive i false).setTerminalActive i true).hasActiveTerminal = true :=
                    setTerminalActive_true_hasActive _ i (t.setActive false) hoffget
                  obtain ⟨netR, hnetR⟩ := Option.isSome_iff_exists.mp
                    (assign_isSome_of_hasActive _ hrevAct)
                  obtain ⟨out, hout, hpres⟩ := ih netR cc deact
                  refine ⟨out, ?_, ?_⟩
                  · simp only [tryDeactivateLoop, hget, hact, hassign, if_pos, hnetR]
                    exact hout
                  · intro hc _
                    have hRc : netR.consumers ≠ [] := by
                      have hlen := assign_preserves_consumers_length _ _ hnetR
                      exact ne_nil_of_length_eq _ _ hlen hc
                    have hRa : netR.hasActiveTerminal = true := by
                      have hframe := (assign_preserves_frame _ _ hnetR).1
                      unfold LogisticsNetwork.hasActiveTerminal
                      rw [hframe]
                      exact hrevAct
                    exact hpres hRc hRa
              | some net2 =>
                  have hframe2 := (assign_preserves_frame _ _ hassign).1
                  have h2get : net2.terminals.get? i = some (t.setActive false) := by
                    rw [hframe2]; exact hoffget
                  have h2len : net2.consumers.length = net.consumers.length :=
                    assign_preserves_consumers_length (net.setTerminalActive i false)
                      net2 hassign
                  cases hcost : net2.calculate_costs tcpu with
                  | none =>
                      have hrevAct : (net2.setTerminalActive i true).hasActiveTerminal = true :=
                        setTerminalActive_true_hasActive net2 i (t.setActive false) h2get
                      obtain ⟨netR, hnetR⟩ := Option.isSome_iff_exists.mp
                        (assign_isSome_of_hasActive _ hrevAct)
                      obtain ⟨out, hout, hpres⟩ := ih netR cc deact
                      refine ⟨out, ?_, ?_⟩
                      · simp only [tryDeactivateLoop, hget, hact, hassign, hcost, hnetR]
                        exact hout
                      · intro hc _
                        have hRc : netR.consumers ≠ [] := by
                          have hlen : netR.consumers.length = net2.consumers.length :=
                            assign_preserves_consumers_length
                              (net2.setTerminalActive i true) netR hnetR
                          exact ne_nil_of_length_eq _ _ (hlen.trans h2len) hc
                        have hRa : netR.hasActiveTerminal = true := by
                          have hframe := (assign_preserves_frame _ _ hnetR).1
                          unfold LogisticsNetwork.hasActiveTerminal
                          rw [hframe]
                          exact hrevAct
                        exact hpres hRc hRa
                  | some cb =>
                      by_cases hlt : cb.total_cost < cc
                      · obtain ⟨out, hout, hpres⟩ := ih net2 cb.total_cost true
                        refine ⟨out, ?_, ?_⟩
                        · simp only [tryDeactivateLoop, hget, hact, hassign, hcost]
                          rw [if_pos hlt]
                          exact hout
                        · intro hc _
                          have h2c : net2.consumers ≠ [] :=
                            ne_nil_of_length_eq _ _ h2len hc
                          have hoffc : (net.setTerminalActive i false).consumers ≠ [] := hc
                          have hoffa : (net.setTerminalActive i false).hasActiveTerminal = true :=
                            assign_some_hasActive _ _ hoffc hassign
                          have h2a : net2.hasActiveTerminal = true := by
                            unfold LogisticsNetwork.hasActiveTerminal
                            rw [hframe2]
                            exact hoffa
                          exact hpres h2c h2a
                      · have hrevAct : (net2.setTerminalActive i true).hasActiveTerminal = true :=
                          setTerminalActive_true_hasActive net2 i (t.setActive false) h2get
                        obtain ⟨netR, hnetR⟩ := Option.isSome_iff_exists.mp
                          (assign_isSome_of_hasActive _ hrevAct)
                        obtain ⟨out, hout, hpres⟩ := ih netR cc deact
                        refine ⟨out, ?_, ?_⟩
                        · simp only [tryDeactivateLoop, hget, hact, hassign, hcost]
                          rw [if_neg hlt, hnetR]
                          exact hout
                        · intro hc _
                          have hRc : netR.consumers ≠ [] := by
                            have hlen : netR.consumers.length = net2.consumers.length :=
                              assign_preserves_consumers_length
                                (net2.setTerminalActive i true) netR hnetR
                            exact ne_nil_of_length_eq _ _ (hlen.trans h2len) hc
                          have hRa : netR.hasActiveTerminal = true := by
                            have hframe := (assign_preserves_frame _ _ hnetR).1
                            unfold LogisticsNetwork.hasActiveTerminal
                            rw [hframe]
                            exact hrevAct
                          exact hpres hRc hRa

/-! ## Cost monotonicity of the coordinate phases -/

/-- Reading the improvement record of a completed run. -/
theorem get_improvement_some_some (i f : ℝ) (rec : Improvement)
    (h : get_improvement (some i) (some f) = some (some rec)) :
    rec.initial_cost = i ∧ rec.final_cost = f := by
  have hEq : get_improvement (some i) (some f) =
      (match pyDiv (i - f) i with
      | none => none
      | some q => some (some
          { initial_cost := i, final_cost := f,
            absolute_improvement := i - f,
            percentage_improvement := q * 100 })) := rfl
  rw [hEq] at h
  split at h
  · exact Option.noConfusion h
  · have h' := Option.some.inj (Option.some.inj h)
    rw [← h']
    exact ⟨rfl, rfl⟩

/-- The phase-1 body never raises the running cost. -/
theorem phase1Terminal_cost_le (tcpu : ℝ) (locs : List (ℝ × ℝ))
    (st : LogisticsNetwork × ℝ) (i : ℕ) (st' : LogisticsNetwork × ℝ)
    (h : phase1Terminal tcpu locs st i = some st') : st'.2 ≤ st.2 := by
  unfold phase1Terminal at h
  split at h
  · rw [← Option.some.inj h]
  · split at h
    · split at h
      · exact Option.noConfusion h
      · next bc bl heq =>
          split at h
          · exact Option.noConfusion h
          · rw [← Option.some.inj h]
            show (if bc < st.2 then bc else st.2) ≤ st.2
            by_cases hlt : bc < st.2
            · rw [if_pos hlt]; exact le_of_lt hlt
            · rw [if_neg hlt]
    · rw [← Option.some.inj h]

/-- A full phase-1 pass never raises the running cost. -/
theorem phase1Pass_cost_le (tcpu : ℝ) (locs : List (ℝ × ℝ)) :
    ∀ (l : List ℕ) (st st' : LogisticsNetwork × ℝ),
      phase1Pass tcpu locs l st = some st' → st'.2 ≤ st.2 := by
  intro l
  induction l with
  | nil =>
      intro st st' h
      rw [← Option.some.inj h]
  | cons i is ih =>
      intro st st' h
      simp only [phase1Pass] at h
      split at h
      · exact Option.noConfusion h
      · next st1 heq =>
          exact le_trans (ih st1 st' h) (phase1Terminal_cost_le tcpu locs st i st1 heq)

/-- The phase-1 while loop never raises the running cost. -/
theorem phase1Loop_cost_le (tcpu : ℝ) (locs : List (ℝ × ℝ)) (tolerance : ℝ) :
    ∀ (fuel : ℕ) (net : LogisticsNetwork) (cc : ℝ) (pn : ℕ)
      (out : LogisticsNetwork × ℝ × ℕ),
      phase1Loop tcpu locs tolerance fuel net cc pn = some out → out.2.1 ≤ cc := by
  intro fuel
  induction fuel with
  | zero =>
      intro net cc pn out h
      rw [← Option.some.inj h]
  | succ n ih =>
      intro net cc pn out h
      simp only [phase1Loop] at h
      split at h
      · exact Option.noConfusion h
      · next net' cc' heq =>
          have hle : cc' ≤ cc :=
            phase1Pass_cost_le tcpu locs _ (net, cc) (net', cc') heq
          split at h
          · rw [← Option.some.inj h]
            exact hle
          · exact le_trans (ih net' cc' (pn + 1) out h) hle

/-- The phase-2 while loop never raises the running cost. -/
theorem phase2Loop_cost_le (tcpu : ℝ) :
    ∀ (fuel : ℕ) (net : LogisticsNetwork) (cc : ℝ) (k : ℕ)
      (out : LogisticsNetwork × ℝ × ℕ),
      phase2Loop tcpu fuel net cc k = some out → out.2.1 ≤ cc := by
  intro fuel
  induction fuel with
  | zero =>
      intro net cc k out h
      rw [← Option.some.inj h]
  | succ n ih =>
      intro net cc k out h
      simp only [phase2Loop] at h
      split at h
      · exact Option.noConfusion h
      · next deact net' heq =>
          split at h
          · split at h
            · exact Option.noConfusion h
            · next cb heqc =>
                split at h
                · next hlt =>
                    exact le_trans (ih net' cb.total_cost (k + 1) out h) (le_of_lt hlt)
                · rw [← Option.some.inj h]
          · rw [← Option.some.inj h]

/-- C3: whenever CoordinateOptimizer.optimize completes, the reported
final cost is at most the reported initial cost — phase 1 lowers the
running cost only on strict improvement and phase 2 keeps a deactivation
only on strict improvement, so the running cost never rises. -/
theorem c3_coordinate_final_le_initial (tcpu tolerance : ℝ) (max_iterations : ℕ)
    (net : LogisticsNetwork) (r : Improvement) (pn : ℕ) (net' : LogisticsNetwork)
    (h : coordinate_optimize tcpu tolerance max_iterations net = some (r, pn, net')) :
    r.final_cost ≤ r.initial_cost := by
  unfold coordinate_optimize at h
  split at h
  · exact Option.noConfusion h
  · next cb0 hcb0 =>
      split at h
      · exact Option.noConfusion h
      · next locs hlocs =>
          split at h
          · exact Option.noConfusion h
          · next net1 cc1 passes hp1 =>
              split at h
              · exact Option.noConfusion h
              · next net2 cc2 k hp2 =>
                  split at h
                  · next rec himp =>
                      have hr : rec = r := congrArg Prod.fst (Option.some.inj h)
                      obtain ⟨hi, hf⟩ := get_improvement_some_some _ _ rec himp
                      rw [← hr, hi, hf]
                      exact le_trans
                        (phase2Loop_cost_le tcpu 10 net1 cc1 0 (net2, cc2, k) hp2)
                        (phase1Loop_cost_le tcpu locs tolerance max_iterations net
                          cb0.total_cost 0 (net1, cc1, passes) hp1)
                  · exact Option.noConfusion h

/-- C6: the nearest-terminal query fails exactly when its eligible set is
empty, and the deactivation sweep catches that failure — it restores the
tentatively closed terminal and reassigns over the again-nonempty active
set, so the sweep itself always completes (the error never escapes
CoordinateOptimizer.optimize through it). -/
theorem c6_nearest_error_caught_by_deactivation :
    (∀ (c : Consumer) (ts : List Terminal) (ao : Bool),
      find_nearest_terminal c ts ao = none ↔ availableTerminals ts ao = []) ∧
    (∀ (tcpu : ℝ) (l : List ℕ) (net : LogisticsNetwork) (cc : ℝ) (deact : Bool),
      (tryDeactivateLoop tcpu l net cc deact).isSome = true) := by
  constructor
  · exact find_nearest_none_iff
  · intro tcpu l net cc deact
    obtain ⟨out, hout, -⟩ := tryDeactivateLoop_spec tcpu l net cc deact
    rw [hout]
    rfl

/-! ## C7: the coordinate optimiser keeps an active terminal -/

/-- An in-place update that does not touch the active flag does not change
the any-active test. -/
theorem listModify_any_active (f : Terminal → Terminal)
    (hf : ∀ t, (f t).is_active = t.is_active) :
    ∀ (i : ℕ) (ts : List Terminal),
      ((listModify f i ts).any fun t => t.is_active) = ts.any fun t => t.is_active := by
  intro i
  induction i with
  | zero =>
      intro ts
      cases ts with
      | nil => rfl
      | cons a as => simp [listModify, List.any_cons, hf]
  | succ n ih =>
      intro ts
      cases ts with
      | nil => rfl
      | cons a as => simp [listModify, List.any_cons, ih]

/-- The phase-1 body moves terminals but never changes which are active,
nor the number of consumers. -/
theorem phase1Terminal_preserves (tcpu : ℝ) (locs : List (ℝ × ℝ))
    (st : LogisticsNetwork × ℝ) (i : ℕ) (st' : LogisticsNetwork × ℝ)
    (h : phase1Terminal tcpu locs st i = some st') :
    st'.1.hasActiveTerminal = st.1.hasActiveTerminal ∧
      st'.1.consumers.length = st.1.consumers.length := by
  unfold phase1Terminal at h
  split at h
  · rw [← Option.some.inj h]; exact ⟨rfl, rfl⟩
  · split at h
    · split at h
      · exact Option.noConfusion h
      · next bc bl heq =>
          split at h
          · exact Option.noConfusion h
          · next netA hassign =>
              rw [← Option.some.inj h]
              constructor
              · show netA.hasActiveTerminal = st.1.hasActiveTerminal
                have hframe := (assign_preserves_frame _ _ hassign).1
                unfold LogisticsNetwork.hasActiveTerminal
                rw [hframe]
                show ((listModify (fun t => t.setPos bl) i st.1.terminals).any
                    fun t => t.is_active) = _
                exact listModify_any_active (fun t => t.setPos bl) (fun t => rfl)
                  i st.1.terminals
              · show netA.consumers.length = st.1.consumers.length
                exact assign_preserves_consumers_length (st.1.setTerminalPos i bl)
                  netA hassign
    · rw [← Option.some.inj h]; exact ⟨rfl, rfl⟩

/-- A full phase-1 pass keeps the active set and the consumer count. -/
theorem phase1Pass_preserves (tcpu : ℝ) (locs : List (ℝ × ℝ)) :
    ∀ (l : List ℕ) (st st' : LogisticsNetwork × ℝ),
      phase1Pass tcpu locs l st = some st' →
      st'.1.hasActiveTerminal = st.1.hasActiveTerminal ∧
        st'.1.consumers.length = st.1.consumers.length := by
  intro l
  induction l with
  | nil =>
      intro st st' h
      rw [← Option.some.inj h]; exact ⟨rfl, rfl⟩
  | cons i is ih =>
      intro st st' h
      simp only [phase1Pass] at h
      split at h
      · exact Option.noConfusion h
      · next st1 heq =>
          obtain ⟨h1, h2⟩ := phase1Terminal_preserves tcpu locs st i st1 heq
          obtain ⟨h3, h4⟩ := ih st1 st' h
          exact ⟨h3.trans h1, h4.trans h2⟩

/-- The phase-1 loop keeps the active set and the consumer count. -/
theorem phase1Loop_preserves (tcpu : ℝ) (locs : List (ℝ × ℝ)) (tolerance : ℝ) :
    ∀ (fuel : ℕ) (net : LogisticsNetwork) (cc : ℝ) (pn : ℕ)
      (out : LogisticsNetwork × ℝ × ℕ),
      phase1Loop tcpu locs tolerance fuel net cc pn = some out →
      out.1.hasActiveTerminal = net.hasActiveTerminal ∧
        out.1.consumers.length = net.consumers.length := by
  intro fuel
  induction fuel with
  | zero =>
      intro net cc pn out h
      rw [← Option.some.inj h]; exact ⟨rfl, rfl⟩
  | succ n ih =>
      intro net cc pn out h
      simp only [phase1Loop] at h
      split at h
      · exact Option.noConfusion h
      · next net' cc' heq =>
          obtain ⟨h1, h2⟩ :=
            phase1Pass_preserves tcpu locs _ (net, cc) (net', cc') heq
          split at h
          · rw [← Option.some.inj h]
            exact ⟨h1, h2⟩
          · obtain ⟨h3, h4⟩ := ih net' cc' (pn + 1) out h
            exact ⟨h3.trans h1, h4.trans h2⟩

/-- The phase-2 loop keeps a nonempty consumer collection and an active
terminal. -/
theorem phase2Loop_preserves (tcpu : ℝ) :
    ∀ (fuel : ℕ) (net : LogisticsNetwork) (cc : ℝ) (k : ℕ)
      (out : LogisticsNetwork × ℝ × ℕ),
      phase2Loop tcpu fuel net cc k = some out →
      net.consumers ≠ [] → net.hasActiveTerminal = true →
      out.1.hasActiveTerminal = true ∧ out.1.consumers ≠ [] := by
  intro fuel
  induction fuel with
  | zero =>
      intro net cc k out h hc ha
      rw [← Option.some.inj h]
      exact ⟨ha, hc⟩
  | succ n ih =>
      intro net cc k out h hc ha
      simp only [phase2Loop] at h
      split at h
      · exact Option.noConfusion h
      · next deact net' heq =>
          obtain ⟨out0, hout0, hpres0⟩ :=
            tryDeactivateLoop_spec tcpu (List.range net.terminals.length) net cc false
          unfold try_deactivate_terminals at heq
          rw [hout0] at heq
          have hout0' : out0 = (deact, net') := Option.some.inj heq
          have hnet' : net'.hasActiveTerminal = true ∧ net'.consumers ≠ [] := by
            have := hpres0 hc ha
            rw [hout0'] at this
            exact this
          split at h
          · split at h
            · exact Option.noConfusion h
            · next cb heqc =>
                split at h
                · exact ih net' cb.total_cost (k + 1) out h hnet'.2 hnet'.1
                · rw [← Option.some.inj h]
                  exact hnet'
          · rw [← Option.some.inj h]
            exact hnet'

/-- A computed candidate-location set needs a consumer to take the
bounding box of. -/
theorem gpl_some_ne_nil (net : LogisticsNetwork) (locs : List (ℝ × ℝ))
    (h : get_possible_locations net = some locs) : net.consumers ≠ [] := by
  intro hc
  have hnone : get_possible_locations net = none := by
    unfold get_possible_locations
    rw [hc]
    rfl
  rw [hnone] at h
  exact Option.noConfusion h

/-- C7: a network entering CoordinateOptimizer.optimize with an active
terminal leaves it with an active terminal — the deactivation sweep reverts
any tentative closing of the last active terminal. -/
theorem c7_optimize_keeps_active_terminal (tcpu tolerance : ℝ)
    (max_iterations : ℕ) (net : LogisticsNetwork) (r : Improvement) (pn : ℕ)
    (net' : LogisticsNetwork) (ha : net.hasActiveTerminal = true)
    (h : coordinate_optimize tcpu tolerance max_iterations net = some (r, pn, net')) :
    net'.hasActiveTerminal = true := by
  unfold coordinate_optimize at h
  split at h
  · exact Option.noConfusion h
  · next cb0 hcb0 =>
      split at h
      · exact Option.noConfusion h
      · next locs hlocs =>
          have hc : net.consumers ≠ [] := gpl_some_ne_nil net locs hlocs
          split at h
          · exact Option.noConfusion h
          · next net1 cc1 passes hp1 =>
              obtain ⟨h1a, h1c⟩ :=
                phase1Loop_preserves tcpu locs tolerance max_iterations net
                  cb0.total_cost 0 (net1, cc1, passes) hp1
              have h1a' : net1.hasActiveTerminal = true := by rw [h1a]; exact ha
              have h1c' : net1.consumers ≠ [] :=
                ne_nil_of_length_eq _ _ h1c hc
              split at h
              · exact Option.noConfusion h
              · next net2 cc2 k hp2 =>
                  have h2 :=
                    phase2Loop_preserves tcpu 10 net1 cc1 0 (net2, cc2, k) hp2
                      h1c' h1a'
                  split at h
                  · next rec himp =>
                      have hn : net2 = net' := by
                        have := Option.some.inj h
                        have := congrArg (fun p => p.2.2) this
                        exact this
                      rw [← hn]
                      exact h2.1
                  · exact Option.noConfusion h

/-! ## Evaluation of the coordinate optimiser on cnetA -/

/-- Reassigning cnetA is a no-op. -/
theorem cnetA_assign : cnetA.assign_consumers_to_terminals = some cnetA := rfl

/-- The cost breakdown of cnetA. -/
theorem cnetA_costs : cnetA.calculate_costs 1 = some cbA := by
  show some (calculate_total_cost 1 ⟨0, 0, 0⟩ cnetA.terminals cnetA.consumers) = some cbA
  norm_num [calculate_total_cost, calculate_terminal_fixed_costs,
    calculate_processing_costs, calculate_transportation_costs,
    centerToTerminalCost, terminalToConsumersCost, consumersFor, cnetA, cbA,
    euclidean_distance, Center.pos, Terminal.pos, Consumer.pos,
    CostBreakdown.mk.injEq, Real.sqrt_zero]

/-- The candidate-location set of cnetA: the single grid point collides
with the consumer, leaving only the centre's position. -/
theorem cnetA_gpl : get_possible_locations cnetA = some [((0 : ℝ), (0 : ℝ))] := by
  have h1 : pyTrunc (0 : ℝ) = 0 := by simp [pyTrunc]
  have h2 : pyRange5 0 (0 + 1) = [0] := by norm_num [pyRange5, List.range_succ]
  have h3 : nearConsumer [⟨1, 0, 0, 1, some 0⟩] 0 0 = true := by
    simp [nearConsumer]
    norm_num
  show some (((pyRange5 (pyTrunc 0) (pyTrunc 0 + 1)).flatMap fun gx =>
      (pyRange5 (pyTrunc 0) (pyTrunc 0 + 1)).filterMap fun gy =>
        if nearConsumer cnetA.consumers gx gy then none
        else some ((gx : ℝ), (gy : ℝ))) ++
      cnetA.centers.map fun ctr => (ctr.x, ctr.y)) = some [((0 : ℝ), (0 : ℝ))]
  rw [h1]
  rw [h2]
  simp [h3, cnetA]

/-- The single candidate location coincides with the terminal's position,
so the relocation loop keeps the running cost. -/
theorem cnetA_bestLoc :
    bestLocLoop 1 cnetA 0 ((0 : ℝ), (0 : ℝ)) [((0 : ℝ), (0 : ℝ))]
      (2, ((0 : ℝ), (0 : ℝ))) = some (2, ((0 : ℝ), (0 : ℝ))) := by
  show (if (((0 : ℝ), (0 : ℝ)) : ℝ × ℝ) = ((0 : ℝ), (0 : ℝ)) then
      bestLocLoop 1 cnetA 0 ((0 : ℝ), (0 : ℝ)) [] (2, ((0 : ℝ), (0 : ℝ)))
    else
      match trialCost 1 cnetA 0 ((0 : ℝ), (0 : ℝ)) with
      | none => none
      | some c =>
          bestLocLoop 1 cnetA 0 ((0 : ℝ), (0 : ℝ)) []
            (if c < 2 then (c, ((0 : ℝ), (0 : ℝ))) else (2, ((0 : ℝ), (0 : ℝ))))) =
    some (2, ((0 : ℝ), (0 : ℝ)))
  rw [if_pos rfl]
  rfl

/-- The phase-1 body leaves cnetA and its cost unchanged. -/
theorem cnetA_phase1Terminal :
    phase1Terminal 1 [((0 : ℝ), (0 : ℝ))] (cnetA, 2) 0 = some (cnetA, 2) := by
  show (match bestLocLoop 1 cnetA 0 ((0 : ℝ), (0 : ℝ)) [((0 : ℝ), (0 : ℝ))]
      (2, ((0 : ℝ), (0 : ℝ))) with
    | none => none
    | some (bc, bl) =>
        match (cnetA.setTerminalPos 0 bl).assign_consumers_to_terminals with
        | none => none
        | some net' => some (net', if bc < 2 then bc else 2)) = some (cnetA, 2)
  simp only [cnetA_bestLoc]
  simp only [show cnetA.setTerminalPos 0 ((0 : ℝ), (0 : ℝ)) = cnetA from rfl,
    cnetA_assign]
  rw [if_neg (lt_irrefl (2 : ℝ))]

/-- Phase 1 on cnetA converges after one pass at cost 2. -/
theorem cnetA_phase1 :
    phase1Loop 1 [((0 : ℝ), (0 : ℝ))] 1 1 cnetA 2 0 = some (cnetA, 2, 1) := by
  show (match phase1Pass 1 [((0 : ℝ), (0 : ℝ))] (List.range cnetA.terminals.length)
      (cnetA, 2) with
    | none => none
    | some (net', cc') =>
        if (2 : ℝ) - cc' < 1 then some (net', cc', 0 + 1)
        else phase1Loop 1 [((0 : ℝ), (0 : ℝ))] 1 0 net' cc' (0 + 1)) =
    some (cnetA, 2, 1)
  have hrange : List.range cnetA.terminals.length = [0] := by
    simp [cnetA, List.range_succ]
  rw [hrange]
  have hpass : phase1Pass 1 [((0 : ℝ), (0 : ℝ))] [0] (cnetA, 2) = some (cnetA, 2) := by
    show (match phase1Terminal 1 [((0 : ℝ), (0 : ℝ))] (cnetA, 2) 0 with
      | none => none
      | some st' => phase1Pass 1 [((0 : ℝ), (0 : ℝ))] [] st') = some (cnetA, 2)
    simp only [cnetA_phase1Terminal]
    rfl
  simp only [hpass]
  rw [if_pos (by norm_num : (2 : ℝ) - 2 < 1)]

/-- The deactivation sweep on cnetA tries the only terminal, hits the
infeasible reassignment, reverts, and deactivates nothing. -/
theorem cnetA_tryDeactivate :
    try_deactivate_terminals 1 cnetA 2 = some (false, cnetA) := by
  unfold try_deactivate_terminals
  have hrange : List.range cnetA.terminals.length = [0] := by
    simp [cnetA, List.range_succ]
  rw [hrange]
  rfl

/-- Phase 2 on cnetA stops after one round without deactivating. -/
theorem cnetA_phase2 : phase2Loop 1 10 cnetA 2 0 = some (cnetA, 2, 1) := by
  show (match try_deactivate_terminals 1 cnetA 2 with
    | none => none
    | some (deact, net') =>
        if deact then
          match net'.calculate_costs 1 with
          | none => none
          | some cb =>
              if cb.total_cost < 2 then phase2Loop 1 9 net' cb.total_cost (0 + 1)
              else some (net', 2, 0 + 1)
        else some (net', 2, 0 + 1)) = some (cnetA, 2, 1)
  simp only [cnetA_tryDeactivate]
  rfl

/-- The complete coordinate run on cnetA: one pass, one deactivation
round, no change, improvement record impA. -/
theorem cnetA_optimize :
    coordinate_optimize 1 1 1 cnetA = some (impA, 1, cnetA) := by
  unfold coordinate_optimize
  rw [cnetA_costs]
  show (match get_possible_locations cnetA with
    | none => none
    | some locs =>
        match phase1Loop 1 locs 1 1 cnetA cbA.total_cost 0 with
        | none => none
        | some (net1, cc1, passes) =>
            match phase2Loop 1 10 net1 cc1 0 with
            | none => none
            | some (net2, cc2, _) =>
                match get_improvement (some cbA.total_cost) (some cc2) with
                | some (some r) => some (r, passes, net2)
                | _ => none) = some (impA, 1, cnetA)
  rw [cnetA_gpl]
  show (match phase1Loop 1 [((0 : ℝ), (0 : ℝ))] 1 1 cnetA cbA.total_cost 0 with
    | none => none
    | some (net1, cc1, passes) =>
        match phase2Loop 1 10 net1 cc1 0 with
        | none => none
        | some (net2, cc2, _) =>
            match get_improvement (some cbA.total_cost) (some cc2) with
            | some (some r) => some (r, passes, net2)
            | _ => none) = some (impA, 1, cnetA)
  rw [show cbA.total_cost = 2 from rfl, cnetA_phase1]
  show (match phase2Loop 1 10 cnetA 2 0 with
    | none => none
    | some (net2, cc2, _) =>
        match get_improvement (some 2) (some cc2) with
        | some (some r) => some (r, 1, net2)
        | _ => none) = some (impA, 1, cnetA)
  rw [cnetA_phase2]
  show (match get_improvement (some (2 : ℝ)) (some (2 : ℝ)) with
    | some (some r) => some (r, 1, cnetA)
    | _ => none) = some (impA, 1, cnetA)
  have himp : get_improvement (some (2 : ℝ)) (some (2 : ℝ)) = some (some impA) := by
    show (match pyDiv ((2 : ℝ) - 2) 2 with
      | none => none
      | some q => some (some
          { initial_cost := (2 : ℝ), final_cost := 2,
            absolute_improvement := 2 - 2,
            percentage_improvement := q * 100 })) = some (some impA)
    rw [show pyDiv ((2 : ℝ) - 2) 2 = some (((2 : ℝ) - 2) / 2) from by
      unfold pyDiv; rw [if_neg (by norm_num : (2 : ℝ) ≠ 0)]]
    norm_num [impA, Improvement.mk.injEq]
  rw [himp]

/-- C3 witness: the coordinate run on cnetA completes with final cost 2 ≤
initial cost 2. -/
theorem c3_witness_cnetA : impA.final_cost ≤ impA.initial_cost :=
  c3_coordinate_final_le_initial 1 1 1 cnetA impA 1 cnetA cnetA_optimize

/-- C7 witness: the coordinate run on cnetA (one active terminal) returns
a network that still has an active terminal. -/
theorem c7_witness_cnetA : cnetA.hasActiveTerminal = true :=
  c7_optimize_keeps_active_terminal 1 1 1 cnetA impA 1 cnetA rfl cnetA_optimize

/-! ## C8: the fitness function -/

/-- Applying the chromosome [1] to cnetA is a no-op. -/
theorem cnetA_apply1 : apply_chromosome [1] cnetA = some cnetA := rfl

/-- C8: an all-zero chromosome has fitness exactly 0 with the network left
untouched (neither the chromosome application nor the cost model runs);
any other chromosome is applied and scores 1 / (1 + total_cost) of the
applied network. -/
theorem c8_fitness_cases (tcpu : ℝ) (net : LogisticsNetwork) (chromo : List ℕ) :
    (chromo.sum = 0 → calculate_fitness tcpu net chromo = some (0, net)) ∧
    (∀ (net' : LogisticsNetwork) (cb : CostBreakdown),
      chromo.sum ≠ 0 → apply_chromosome chromo net = some net' →
      net'.calculate_costs tcpu = some cb → 1 + cb.total_cost ≠ 0 →
      calculate_fitness tcpu net chromo =
        some (1 / (1 + cb.total_cost), net')) := by
  constructor
  · intro hz
    unfold calculate_fitness
    rw [if_pos hz]
  · intro net' cb hnz happly hcost hden
    unfold calculate_fitness
    rw [if_neg hnz]
    simp only [happly, hcost]
    have hdiv : pyDiv 1 (1 + cb.total_cost) = some (1 / (1 + cb.total_cost)) := by
      unfold pyDiv
      rw [if_neg hden]
    simp only [hdiv]

/-- C8 witness: on cnetA, the all-zero chromosome [0] scores 0 leaving the
network alone, and [1] scores 1 / (1 + 2). -/
theorem c8_witness_cnetA :
    calculate_fitness 1 cnetA [0] = some (0, cnetA) ∧
    calculate_fitness 1 cnetA [1] = some (1 / (1 + cbA.total_cost), cnetA) :=
  ⟨(c8_fitness_cases 1 cnetA [0]).1 rfl,
   (c8_fitness_cases 1 cnetA [1]).2 cnetA cbA (by decide) cnetA_apply1
     cnetA_costs (by norm_num [cbA])⟩

/-! ## C5: elitism and monotone best fitness -/

/-- The offspring loop only appends to its accumulator. -/
theorem offspringLoop_append (n pop_size : ℕ) (population : List (List ℕ))
    (fitness_values : List ℝ) (r : ℕ → PairRand) :
    ∀ (fuel round : ℕ) (acc : List (List ℕ)), ∃ ext,
      offspringLoop n pop_size population fitness_values r fuel round acc =
        acc ++ ext := by
  intro fuel
  induction fuel with
  | zero =>
      intro round acc
      exact ⟨[], by simp [offspringLoop]⟩
  | succ m ih =>
      intro round acc
      simp only [offspringLoop]
      by_cases hlen : acc.length < pop_size
      · rw [if_pos hlen]
        have hmid : ∃ mid,
            (if (acc ++ [(offspringRound n population fitness_values (r round)).1]).length < pop_size
              then (acc ++ [(offspringRound n population fitness_values (r round)).1]) ++
                [(offspringRound n population fitness_values (r round)).2]
              else acc ++ [(offspringRound n population fitness_values (r round)).1]) =
            acc ++ mid := by
          by_cases h2 : (acc ++ [(offspringRound n population fitness_values (r round)).1]).length < pop_size
          · exact ⟨[(offspringRound n population fitness_values (r round)).1] ++
              [(offspringRound n population fitness_values (r round)).2],
              by rw [if_pos h2, List.append_assoc]⟩
          · exact ⟨[(offspringRound n population fitness_values (r round)).1],
              by rw [if_neg h2]⟩
        obtain ⟨mid, hmid⟩ := hmid
        rw [hmid]
        obtain ⟨ext, hext⟩ := ih (round + 1) (acc ++ mid)
        rw [hext, List.append_assoc]
        exact ⟨mid ++ ext, rfl⟩
      · rw [if_neg hlen]
        exact ⟨[], by simp⟩

/-- C5: every generation's new population starts with an unchanged copy of
the best chromosome found so far, and the tracked best fitness never
decreases from one generation to the next. -/
theorem c5_elitism_and_monotone_best (tcpu : ℝ) (n pop_size : ℕ)
    (r : ℕ → PairRand) (s s' : GAState)
    (h : genStep tcpu n pop_size r s = some s') :
    s'.population.head? = some s.best_chromosome ∧
      s.best_fitness ≤ s'.best_fitness := by
  unfold genStep at h
  dsimp only at h
  split at h
  · exact Option.noConfusion h
  · next fs net' heval =>
      split at h
      · exact Option.noConfusion h
      · next bi hbi =>
          obtain ⟨ext, hext⟩ :=
            offspringLoop_append n pop_size s.population s.fitness_values r
              pop_size 0 [s.best_chromosome]
          split at h
          · next hlt =>
              rw [← Option.some.inj h]
              constructor
              · show (offspringLoop n pop_size s.population s.fitness_values r
                    pop_size 0 [s.best_chromosome]).head? = some s.best_chromosome
                rw [hext]
                rfl
              · exact le_of_lt hlt
          · next hge =>
              rw [← Option.some.inj h]
              constructor
              · show (offspringLoop n pop_size s.population s.fitness_values r
                    pop_size 0 [s.best_chromosome]).head? = some s.best_chromosome
                rw [hext]
                rfl
              · exact le_refl _

/-- The fitness of chromosome [1] on cnetA is 1/3. -/
theorem cnetA_fitness1 : calculate_fitness 1 cnetA [1] = some (1 / 3, cnetA) := by
  unfold calculate_fitness
  rw [if_neg (by decide : ¬([1] : List ℕ).sum = 0)]
  simp only [cnetA_apply1, cnetA_costs]
  show (match pyDiv 1 (1 + cbA.total_cost) with
    | none => none
    | some f => some (f, cnetA)) = some (1 / 3, cnetA)
  rw [show pyDiv 1 (1 + cbA.total_cost) = some (1 / 3) from by
    unfold pyDiv
    rw [if_neg (by norm_num [cbA] : ¬(1 + cbA.total_cost = (0 : ℝ)))]
    norm_num [cbA]]

/-- One generation step on the one-chromosome state sW is a fixed point. -/
theorem sW_genStep : genStep 1 1 1 grW sW = some sW := by
  unfold genStep
  dsimp only
  rw [show offspringLoop 1 1 sW.population sW.fitness_values grW 1 0
      [sW.best_chromosome] = [[1]] from rfl]
  rw [show evalPopulation 1 [[1]] sW.net = some ([1 / 3], cnetA) from by
    show (match calculate_fitness 1 cnetA [1] with
      | none => none
      | some (f, net') =>
          match evalPopulation 1 [] net' with
          | none => none
          | some (fs, net'') => some (f :: fs, net'')) = some ([1 / 3], cnetA)
    simp only [cnetA_fitness1]
    rfl]
  simp [sW, maxByKeyFirst, List.range_succ]

/-- C5 witness: the elitism and monotone-best statement applied at the
concrete state sW (one chromosome, one generation step). -/
theorem c5_witness_sW :
    sW.population.head? = some sW.best_chromosome ∧
      sW.best_fitness ≤ sW.best_fitness :=
  c5_elitism_and_monotone_best 1 1 1 grW sW sW sW_genStep

/-! ## Geometry lemmas: the genetic trials preserve the network shape -/

/-- sameShape is reflexive. -/
theorem sameShape_refl (a : LogisticsNetwork) : sameShape a a :=
  ⟨rfl, rfl, rfl⟩

/-- sameShape is transitive. -/
theorem sameShape_trans {a b c : LogisticsNetwork}
    (h₁ : sameShape a b) (h₂ : sameShape b c) : sameShape a c :=
  ⟨h₁.1.trans h₂.1, h₁.2.1.trans h₂.2.1, h₁.2.2.trans h₂.2.2⟩

/-- Terminals with the same geometry and the same flag are equal. -/
theorem terminal_eq_of_geom (t₁ t₂ : Terminal) (h : t₁.geom = t₂.geom)
    (hb : t₁.is_active = t₂.is_active) : t₁ = t₂ := by
  cases t₁
  cases t₂
  simp only [Terminal.geom, Prod.mk.injEq] at h
  simp_all

/-- Consumers with the same geometry and the same assignment are equal. -/
theorem consumer_eq_of_geom (c₁ c₂ : Consumer) (h : c₁.geom = c₂.geom)
    (ha : c₁.assigned_terminal = c₂.assigned_terminal) : c₁ = c₂ := by
  cases c₁
  cases c₂
  simp only [Consumer.geom, Prod.mk.injEq] at h
  simp_all

/-- Equal consumer geometry gives equal position. -/
theorem Consumer.pos_of_geom (c₁ c₂ : Consumer) (h : c₁.geom = c₂.geom) :
    c₁.pos = c₂.pos := by
  cases c₁
  cases c₂
  simp only [Consumer.geom, Prod.mk.injEq] at h
  simp_all [Consumer.pos]

/-- The nearest-terminal loop looks at the consumer only through its
position. -/
theorem nearestLoop_pos_eq (c₁ c₂ : Consumer) (hpos : c₁.pos = c₂.pos) :
    ∀ (l : List Terminal) (acc : Option (Terminal × ℝ)),
      nearestLoop c₁ l acc = nearestLoop c₂ l acc := by
  intro l
  induction l with
  | nil => intro acc; rfl
  | cons t ts ih =>
      intro acc
      cases acc with
      | none =>
          show nearestLoop c₁ ts (some (t, euclidean_distance c₁.pos t.pos)) = _
          rw [hpos]
          exact ih _
      | some p =>
          obtain ⟨b, bd⟩ := p
          show (if euclidean_distance c₁.pos t.pos < bd then
              nearestLoop c₁ ts (some (t, euclidean_distance c₁.pos t.pos))
            else nearestLoop c₁ ts (some (b, bd))) = _
          rw [hpos, ih, ih]
          rfl

/-- find_nearest_terminal looks at the consumer only through its
position. -/
theorem find_nearest_pos_eq (c₁ c₂ : Consumer) (hpos : c₁.pos = c₂.pos)
    (ts : List Terminal) (ao : Bool) :
    find_nearest_terminal c₁ ts ao = find_nearest_terminal c₂ ts ao := by
  unfold find_nearest_terminal
  exact nearestLoop_pos_eq c₁ c₂ hpos _ _

/-- applyFlags gives the same result on terminal lists of equal geometry
once the chromosome covers them. -/
theorem applyFlags_eq_of_geom :
    ∀ (ts₁ ts₂ : List Terminal) (g : List ℕ),
      ts₁.map Terminal.geom = ts₂.map Terminal.geom →
      ts₁.length ≤ g.length →
      applyFlags ts₁ g = applyFlags ts₂ g := by
  intro ts₁
  induction ts₁ with
  | nil =>
      intro ts₂ g hg _
      have : ts₂ = [] := by
        cases ts₂ with
        | nil => rfl
        | cons t ts => exact absurd hg (by simp)
      rw [this]
  | cons t₁ rest₁ ih =>
      intro ts₂ g hg hlen
      cases ts₂ with
      | nil => exact absurd hg (by simp)
      | cons t₂ rest₂ =>
          simp only [List.map_cons, List.cons.injEq] at hg
          cases g with
          | nil => exact absurd hlen (by simp)
          | cons x g' =>
              show ({ t₁ with is_active := decide (x ≠ 0) } :: applyFlags rest₁ g') =
                ({ t₂ with is_active := decide (x ≠ 0) } :: applyFlags rest₂ g')
              rw [terminal_eq_of_geom { t₁ with is_active := decide (x ≠ 0) }
                  { t₂ with is_active := decide (x ≠ 0) } (by simpa [Terminal.geom] using hg.1) rfl,
                ih rest₂ g' hg.2 (by simpa using Nat.le_of_succ_le_succ hlen)]

/-- applyFlags does not change the geometry. -/
theorem applyFlags_geom :
    ∀ (ts : List Terminal) (g : List ℕ),
      (applyFlags ts g).map Terminal.geom = ts.map Terminal.geom := by
  intro ts
  induction ts with
  | nil => intro g; cases g <;> rfl
  | cons t rest ih =>
      intro g
      cases g with
      | nil => rfl
      | cons x g' =>
          show Terminal.geom { t with is_active := decide (x ≠ 0) } ::
              (applyFlags rest g').map Terminal.geom = _
          rw [ih g']
          rfl

/-- A covered chromosome with a nonzero gene opens some terminal. -/
theorem applyFlags_any_active :
    ∀ (ts : List Terminal) (g : List ℕ),
      g.length = ts.length → g.sum ≠ 0 →
      ((applyFlags ts g).any fun t => t.is_active) = true := by
  intro ts
  induction ts with
  | nil =>
      intro g hlen hsum
      cases g with
      | nil => exact absurd rfl hsum
      | cons x g' => exact absurd hlen (by simp)
  | cons t rest ih =>
      intro g hlen hsum
      cases g with
      | nil => exact absurd hlen (by simp)
      | cons x g' =>
          show (({ t with is_active := decide (x ≠ 0) } :: applyFlags rest g').any
            fun t => t.is_active) = true
          by_cases hx : x = 0
          · have hs : g'.sum ≠ 0 := by
              intro h0
              exact hsum (by simp [hx, h0])
            simp only [List.any_cons]
            rw [ih g' (by simpa using hlen) hs]
            simp
          · simp [List.any_cons, hx]

/-- The assignment loop gives the same result on consumer lists of equal
geometry. -/
theorem assignLoop_eq_of_geom (ts : List Terminal) :
    ∀ (cs₁ cs₂ : List Consumer),
      cs₁.map Consumer.geom = cs₂.map Consumer.geom →
      assignLoop ts cs₁ = assignLoop ts cs₂ := by
  intro cs₁
  induction cs₁ with
  | nil =>
      intro cs₂ hg
      have : cs₂ = [] := by
        cases cs₂ with
        | nil => rfl
        | cons c cs => exact absurd hg (by simp)
      rw [this]
  | cons c₁ rest₁ ih =>
      intro cs₂ hg
      cases cs₂ with
      | nil => exact absurd hg (by simp)
      | cons c₂ rest₂ =>
          simp only [List.map_cons, List.cons.injEq] at hg
          show (match find_nearest_terminal c₁ ts true with
            | none => none
            | some (t, _) =>
                match assignLoop ts rest₁ with
                | none => none
                | some cs' => some ({ c₁ with assigned_terminal := some t.id } :: cs')) =
            (match find_nearest_terminal c₂ ts true with
            | none => none
            | some (t, _) =>
                match assignLoop ts rest₂ with
                | none => none
                | some cs' => some ({ c₂ with assigned_terminal := some t.id } :: cs'))
          rw [find_nearest_pos_eq c₁ c₂ (Consumer.pos_of_geom c₁ c₂ hg.1) ts true,
            ih rest₂ hg.2]
          cases find_nearest_terminal c₂ ts true with
          | none => rfl
          | some p =>
              obtain ⟨t, d⟩ := p
              cases assignLoop ts rest₂ with
              | none => rfl
              | some cs' =>
                  show some _ = some _
                  rw [consumer_eq_of_geom { c₁ with assigned_terminal := some t.id }
                    { c₂ with assigned_terminal := some t.id }
                    (by simpa [Consumer.geom] using hg.1) rfl]

/-- The assignment loop does not change the consumer geometry. -/
theorem assignLoop_geom (ts : List Terminal) :
    ∀ (cs cs' : List Consumer), assignLoop ts cs = some cs' →
      cs'.map Consumer.geom = cs.map Consumer.geom := by
  intro cs
  induction cs with
  | nil =>
      intro cs' h
      rw [← Option.some.inj h]
  | cons c rest ih =>
      intro cs' h
      rw [show assignLoop ts (c :: rest) =
          (match find_nearest_terminal c ts true with
          | none => none
          | some (t, _) =>
              match assignLoop ts rest with
              | none => none
              | some cs' =>
                  some ({ c with assigned_terminal := some t.id } :: cs')) from rfl] at h
      split at h
      · exact Option.noConfusion h
      · next t d hfind =>
          split at h
          · exact Option.noConfusion h
          · next rest' hrest =>
              rw [← Option.some.inj h]
              show Consumer.geom { c with assigned_terminal := some t.id } ::
                rest'.map Consumer.geom = _
              rw [ih rest' hrest]
              rfl

/-- Applying a covering chromosome erases every flag and assignment
difference: shape-equal networks give identical applied networks. -/
theorem apply_eq_of_sameShape (g : List ℕ) (a b : LogisticsNetwork)
    (hs : sameShape a b) (hlen : a.terminals.length ≤ g.length) :
    apply_chromosome g a = apply_chromosome g b := by
  obtain ⟨hc, ht, hcs⟩ := hs
  unfold apply_chromosome LogisticsNetwork.assign_consumers_to_terminals
  dsimp only
  have hT : applyFlags a.terminals g = applyFlags b.terminals g :=
    applyFlags_eq_of_geom a.terminals b.terminals g ht hlen
  rw [hT, assignLoop_eq_of_geom (applyFlags b.terminals g) a.consumers b.consumers hcs]
  cases assignLoop (applyFlags b.terminals g) b.consumers with
  | none => rfl
  | some cs' =>
      show some _ = some _
      rw [hc]

/-- Applying a chromosome only changes flags and assignments. -/
theorem apply_preserves_shape (g : List ℕ) (a a' : LogisticsNetwork)
    (h : apply_chromosome g a = some a') : sameShape a a' := by
  unfold apply_chromosome LogisticsNetwork.assign_consumers_to_terminals at h
  dsimp only at h
  cases hrun : assignLoop (applyFlags a.terminals g) a.consumers with
  | none => rw [hrun] at h; exact absurd h (by simp)
  | some cs' =>
      rw [hrun] at h
      have h' := Option.some.inj h
      rw [← h']
      exact ⟨rfl, (applyFlags_geom a.terminals g).symm,
        (assignLoop_geom (applyFlags a.terminals g) a.consumers cs' hrun).symm⟩

/-- A covering chromosome with a nonzero gene can always be applied. -/
theorem apply_isSome (g : List ℕ) (a : LogisticsNetwork)
    (hz : g.sum ≠ 0) (hlen : g.length = a.terminals.length) :
    (apply_chromosome g a).isSome = true := by
  unfold apply_chromosome
  apply assign_isSome_of_hasActive
  show (({ a with terminals := applyFlags a.terminals g }).terminals.any
    fun t => t.is_active) = true
  exact applyFlags_any_active a.terminals g hlen hz

/-- The fitness value depends on the network only through its shape. -/
theorem fitness_eq_of_sameShape (tcpu : ℝ) (g : List ℕ) (a b : LogisticsNetwork)
    (hs : sameShape a b) (hok : chromOk a.terminals.length g) :
    (calculate_fitness tcpu a g).map Prod.fst =
      (calculate_fitness tcpu b g).map Prod.fst := by
  unfold calculate_fitness
  by_cases hz : g.sum = 0
  · rw [if_pos hz, if_pos hz]
    rfl
  · rw [if_neg hz, if_neg hz]
    have hlen : a.terminals.length ≤ g.length := by
      rcases hok with h | h
      · exact le_of_eq h.symm
      · exact absurd (by rw [h]; rfl) hz
    rw [apply_eq_of_sameShape g a b hs hlen]

/-- Evaluating a fitness keeps the network shape. -/
theorem fitness_shape (tcpu : ℝ) (a : LogisticsNetwork) (g : List ℕ)
    (f : ℝ) (a' : LogisticsNetwork)
    (h : calculate_fitness tcpu a g = some (f, a')) : sameShape a a' := by
  unfold calculate_fitness at h
  split at h
  · have h' := Option.some.inj h
    have : a = a' := congrArg Prod.snd h'
    rw [← this]
    exact sameShape_refl a
  · split at h
    · exact Option.noConfusion h
    · next net' happly =>
        split at h
        · exact Option.noConfusion h
        · next cb hcost =>
            split at h
            · exact Option.noConfusion h
            · next q hdiv =>
                have h' := Option.some.inj h
                have : net' = a' := congrArg Prod.snd h'
                rw [← this]
                exact apply_preserves_shape g a net' happly

/-- Reading off the fitness formula of a non-all-zero chromosome. -/
theorem fitness_formula (tcpu : ℝ) (a : LogisticsNetwork) (g : List ℕ) (f : ℝ)
    (hz : g.sum ≠ 0)
    (h : (calculate_fitness tcpu a g).map Prod.fst = some f) :
    ∃ net' cb, apply_chromosome g a = some net' ∧
      net'.calculate_costs tcpu = some cb ∧ 1 + cb.total_cost ≠ 0 ∧
      f = 1 / (1 + cb.total_cost) := by
  unfold calculate_fitness at h
  rw [if_neg hz] at h
  split at h
  · exact absurd h (by simp)
  · next net' happly =>
      split at h
      · exact absurd h (by simp)
      · next cb hcost =>
          split at h
          · exact absurd h (by simp)
          · next q hdiv =>
              refine ⟨net', cb, happly, hcost, ?_, ?_⟩
              · intro hden
                unfold pyDiv at hdiv
                rw [if_pos hden] at hdiv
                exact Option.noConfusion hdiv
              · unfold pyDiv at hdiv
                split at hdiv
                · exact Option.noConfusion hdiv
                · have hq := Option.some.inj hdiv
                  have hf : q = f := by
                    simpa using h
                  rw [← hf, ← hq]

/-! ## Nonnegativity of the cost model -/

/-- With nonnegative rates, costs and demands, every cost component — and
so the total — is nonnegative. -/
theorem total_cost_nonneg (tcpu : ℝ) (center : Center) (ts : List Terminal)
    (cs : List Consumer) (htc : 0 ≤ tcpu)
    (hts : ∀ t ∈ ts, 0 ≤ t.terminal_cost ∧ 0 ≤ t.processing_cost)
    (hcs : ∀ c ∈ cs, 0 ≤ c.demand) :
    0 ≤ (calculate_total_cost tcpu center ts cs).total_cost := by
  have hdem : ∀ tid : Int, 0 ≤ ((consumersFor cs tid).map fun c => c.demand).sum := by
    intro tid
    apply List.sum_nonneg
    intro x hx
    obtain ⟨c, hcmem, rfl⟩ := List.mem_map.mp hx
    exact hcs c (List.mem_filter.mp hcmem).1
  have hfix : 0 ≤ calculate_terminal_fixed_costs ts := by
    apply List.sum_nonneg
    intro x hx
    obtain ⟨t, ht, rfl⟩ := List.mem_map.mp hx
    exact (hts t (List.mem_filter.mp ht).1).1
  have hproc : 0 ≤ calculate_processing_costs ts cs := by
    apply List.sum_nonneg
    intro x hx
    obtain ⟨t, ht, rfl⟩ := List.mem_map.mp hx
    exact mul_nonneg (hts t (List.mem_filter.mp ht).1).2 (hdem t.id)
  have hc2t : 0 ≤ (calculate_transportation_costs tcpu center ts cs).1 := by
    apply List.sum_nonneg
    intro x hx
    obtain ⟨t, ht, rfl⟩ := List.mem_map.mp hx
    unfold centerToTerminalCost
    have h1 : 0 ≤ euclidean_distance center.pos t.pos := Real.sqrt_nonneg _
    have h2 := hdem t.id
    positivity
  have ht2c : 0 ≤ (calculate_transportation_costs tcpu center ts cs).2.1 := by
    apply List.sum_nonneg
    intro x hx
    obtain ⟨t, ht, rfl⟩ := List.mem_map.mp hx
    unfold terminalToConsumersCost
    apply List.sum_nonneg
    intro y hy
    obtain ⟨c, hcmem, rfl⟩ := List.mem_map.mp hy
    have h1 : 0 ≤ euclidean_distance t.pos c.pos := Real.sqrt_nonneg _
    have h2 : 0 ≤ c.demand := hcs c (List.mem_filter.mp hcmem).1
    positivity
  show 0 ≤ calculate_terminal_fixed_costs ts + calculate_processing_costs ts cs +
    (calculate_transportation_costs tcpu center ts cs).2.2
  have httot : (calculate_transportation_costs tcpu center ts cs).2.2 =
      (calculate_transportation_costs tcpu center ts cs).1 +
        (calculate_transportation_costs tcpu center ts cs).2.1 := rfl
  rw [httot]
  have := add_nonneg (add_nonneg hfix hproc) (add_nonneg hc2t ht2c)
  linarith

/-- Nonnegative cost data transfers along sameShape. -/
theorem nonneg_of_sameShape (tcpu : ℝ) (a b : LogisticsNetwork)
    (hs : sameShape a b) (hnn : NonnegSetup tcpu a) : NonnegSetup tcpu b := by
  obtain ⟨hc, ht, hcs⟩ := hs
  obtain ⟨h0, h1, h2⟩ := hnn
  refine ⟨h0, ?_, ?_⟩
  · intro t htb
    have : Terminal.geom t ∈ b.terminals.map Terminal.geom := List.mem_map_of_mem _ htb
    rw [← ht] at this
    obtain ⟨t', ht', hgeq⟩ := List.mem_map.mp this
    have hcost : t'.terminal_cost = t.terminal_cost := congrArg (fun p => p.2.2.2.1) hgeq
    have hpc : t'.processing_cost = t.processing_cost := congrArg (fun p => p.2.2.2.2) hgeq
    rw [← hcost, ← hpc]
    exact h1 t' ht'
  · intro c hcb
    have : Consumer.geom c ∈ b.consumers.map Consumer.geom := List.mem_map_of_mem _ hcb
    rw [← hcs] at this
    obtain ⟨c', hc', hgeq⟩ := List.mem_map.mp this
    have hdem : c'.demand = c.demand := congrArg (fun p => p.2.2.2) hgeq
    rw [← hdem]
    exact h2 c' hc'

/-- A computed cost breakdown of a nonnegative network has a nonnegative
total. -/
theorem calculate_costs_nonneg (tcpu : ℝ) (net : LogisticsNetwork)
    (cb : CostBreakdown) (hnn : NonnegSetup tcpu net)
    (h : net.calculate_costs tcpu = some cb) : 0 ≤ cb.total_cost := by
  unfold LogisticsNetwork.calculate_costs at h
  cases hctr : net.get_center with
  | none => rw [hctr] at h; exact absurd h (by simp)
  | some ctr =>
      rw [hctr] at h
      have h' := Option.some.inj h
      rw [← h']
      exact total_cost_nonneg tcpu ctr net.terminals net.consumers hnn.1 hnn.2.1 hnn.2.2

/-- The fitness of a non-all-zero chromosome on a nonnegative network is
strictly positive. -/
theorem fitness_pos (tcpu : ℝ) (a : LogisticsNetwork) (g : List ℕ) (f : ℝ)
    (hnn : NonnegSetup tcpu a) (hz : g.sum ≠ 0)
    (h : (calculate_fitness tcpu a g).map Prod.fst = some f) : 0 < f := by
  obtain ⟨net', cb, happly, hcost, hden, hf⟩ := fitness_formula tcpu a g f hz h
  have hshape := apply_preserves_shape g a net' happly
  have hnn' := nonneg_of_sameShape tcpu a net' hshape hnn
  have htot := calculate_costs_nonneg tcpu net' cb hnn' hcost
  rw [hf]
  have : (0 : ℝ) < 1 + cb.total_cost := by linarith
  positivity

/-! ## Population evaluation and selection lemmas -/

/-- Population evaluation keeps the shape and records, against the base
network, exactly each chromosome's fitness. -/
theorem evalPopulation_spec (tcpu : ℝ) (base : LogisticsNetwork) :
    ∀ (cs : List (List ℕ)) (net : LogisticsNetwork) (fs : List ℝ)
      (net' : LogisticsNetwork),
      sameShape base net → (∀ c ∈ cs, chromOk base.terminals.length c) →
      evalPopulation tcpu cs net = some (fs, net') →
      sameShape base net' ∧
        List.Forall₂ (fun c f =>
          (calculate_fitness tcpu base c).map Prod.fst = some f) cs fs := by
  intro cs
  induction cs with
  | nil =>
      intro net fs net' hs hok h
      have h' := Option.some.inj h
      have hfs : ([] : List ℝ) = fs := congrArg Prod.fst h'
      have hnet : net = net' := congrArg Prod.snd h'
      rw [← hfs, ← hnet]
      exact ⟨hs, List.Forall₂.nil⟩
  | cons c rest ih =>
      intro net fs net' hs hok h
      simp only [evalPopulation] at h
      split at h
      · exact Option.noConfusion h
      · next f net₁ hfit =>
          split at h
          · exact Option.noConfusion h
          · next fs₁ net₂ heval =>
              have h' := Option.some.inj h
              have hfs : f :: fs₁ = fs := congrArg Prod.fst h'
              have hnet : net₂ = net' := congrArg Prod.snd h'
              have hval : (calculate_fitness tcpu net c).map Prod.fst = some f := by
                rw [hfit]
                rfl
              have hbase : (calculate_fitness tcpu base c).map Prod.fst = some f := by
                rw [fitness_eq_of_sameShape tcpu c base net hs
                  (hok c (List.mem_cons_self c rest))]
                exact hval
              have hs₁ : sameShape base net₁ :=
                sameShape_trans hs (fitness_shape tcpu net c f net₁ hfit)
              obtain ⟨hshape, hforall⟩ := ih net₁ fs₁ net₂ hs₁
                (fun x hx => hok x (List.mem_cons_of_mem c hx)) heval
              rw [← hfs, ← hnet]
              exact ⟨hshape, List.Forall₂.cons hbase hforall⟩

/-- The running best of the first-max fold is a bound for the start and
every walked element, and is one of them. -/
theorem foldl_maxBy_spec (key : ℕ → ℝ) :
    ∀ (l : List ℕ) (i : ℕ),
      (key i ≤ key (l.foldl (fun b j => if key b < key j then j else b) i) ∧
        ∀ j ∈ l, key j ≤ key (l.foldl (fun b j => if key b < key j then j else b) i)) ∧
      (l.foldl (fun b j => if key b < key j then j else b) i = i ∨
        l.foldl (fun b j => if key b < key j then j else b) i ∈ l) := by
  intro l
  induction l with
  | nil => intro i; exact ⟨⟨le_refl _, by simp⟩, Or.inl rfl⟩
  | cons j js ih =>
      intro i
      simp only [List.foldl_cons]
      have hstep : key i ≤ key (if key i < key j then j else i) ∧
          key j ≤ key (if key i < key j then j else i) := by
        by_cases hij : key i < key j
        · rw [if_pos hij]; exact ⟨le_of_lt hij, le_refl _⟩
        · rw [if_neg hij]; exact ⟨le_refl _, not_lt.mp hij⟩
      have hmem : (if key i < key j then j else i) = i ∨
          (if key i < key j then j else i) = j := by
        by_cases hij : key i < key j
        · rw [if_pos hij]; exact Or.inr rfl
        · rw [if_neg hij]; exact Or.inl rfl
      obtain ⟨⟨h1, h2⟩, h3⟩ := ih (if key i < key j then j else i)
      refine ⟨⟨le_trans hstep.1 h1, ?_⟩, ?_⟩
      · intro j' hj'
        rcases List.mem_cons.mp hj' with rfl | hj'
        · exact le_trans hstep.2 h1
        · exact h2 j' hj'
      · rcases h3 with heq | hmem'
        · rcases hmem with hi | hj
          · exact Or.inl (heq.trans hi)
          · exact Or.inr (by rw [heq, hj]; exact List.mem_cons_self j js)
        · exact Or.inr (List.mem_cons_of_mem j hmem')

/-- Python's first-max: the returned index belongs to the list and its key
bounds every listed key. -/
theorem maxByKeyFirst_spec (key : ℕ → ℝ) (l : List ℕ) (b : ℕ)
    (h : maxByKeyFirst key l = some b) :
    b ∈ l ∧ ∀ i ∈ l, key i ≤ key b := by
  cases l with
  | nil => exact Option.noConfusion h
  | cons i is =>
      have hb := Option.some.inj h
      obtain ⟨⟨h1, h2⟩, h3⟩ := foldl_maxBy_spec key is i
      rw [hb] at h1 h2 h3
      constructor
      · rcases h3 with heq | hmem
        · rw [heq]; exact List.mem_cons_self i is
        · exact List.mem_cons_of_mem i hmem
      · intro k hk
        rcases List.mem_cons.mp hk with rfl | hk
        · exact h1
        · exact h2 k hk

/-- Forall₂ read at an index. -/
theorem forall2_get? {α β : Type} {R : α → β → Prop} :
    ∀ {l₁ : List α} {l₂ : List β}, List.Forall₂ R l₁ l₂ →
      ∀ (i : ℕ) (x : α), l₁.get? i = some x →
        ∃ y, l₂.get? i = some y ∧ R x y := by
  intro l₁ l₂ h
  induction h with
  | nil => intro i x hx; exact absurd hx (by simp)
  | @cons a b as bs hr hrec ih =>
      intro i x hx
      cases i with
      | zero =>
          have := Option.some.inj hx
          exact ⟨b, rfl, this ▸ hr⟩
      | succ n => exact ih n x hx

/-! ## Reachable chromosomes -/

/-- chromOk transfers along equal length. -/
theorem chromOk_of_length_eq (n : ℕ) (c d : List ℕ) (hok : chromOk n c)
    (hlen : d.length = c.length) : chromOk n d := by
  rcases hok with h | h
  · exact Or.inl (hlen.trans h)
  · rw [h] at hlen
    exact Or.inr (List.eq_nil_of_length_eq_zero hlen)

/-- Indexing with a default keeps chromOk. -/
theorem getD_chromOk (n : ℕ) (pop : List (List ℕ))
    (hok : ∀ x ∈ pop, chromOk n x) (b : ℕ) : chromOk n (pop.getD b []) := by
  cases hget : pop.get? b with
  | none =>
      have : pop.getD b [] = [] := by
        rw [List.getD_eq_get?, hget]
        rfl
      rw [this]
      exact Or.inr rfl
  | some x =>
      have : pop.getD b [] = x := by
        rw [List.getD_eq_get?, hget]
        rfl
      rw [this]
      exact hok x (List.get?_mem hget)

/-- Tournament selection returns a population member or the empty list. -/
theorem tournament_chromOk (n : ℕ) (pop : List (List ℕ)) (fv : List ℝ)
    (idxs : List ℕ) (hok : ∀ x ∈ pop, chromOk n x) :
    chromOk n (tournament_selection pop fv idxs) := by
  unfold tournament_selection
  cases maxByKeyFirst (fun i => fv.getD i 0) idxs with
  | none => exact Or.inr rfl
  | some b => exact getD_chromOk n pop hok b

/-- The crossover gene walk keeps the first parent's length. -/
theorem crossoverGenes_length (swap : ℕ → Bool) :
    ∀ (i : ℕ) (as bs : List ℕ), (crossoverGenes swap i as bs).length = as.length := by
  intro i as
  induction as generalizing i with
  | nil => intro bs; cases bs <;> rfl
  | cons a as ih =>
      intro bs
      cases bs with
      | nil => rfl
      | cons b bs => simp [crossoverGenes, ih]

/-- The mutation gene walk keeps the length. -/
theorem mutateGenes_length (coin : ℕ → Bool) :
    ∀ (i : ℕ) (c : List ℕ), (mutateGenes coin i c).length = c.length := by
  intro i c
  induction c generalizing i with
  | nil => rfl
  | cons g gs ih => simp [mutateGenes, ih]

/-- The all-zero repair keeps the length. -/
theorem repairZero_length (n rep : ℕ) (c : List ℕ) :
    (repairZero n rep c).length = c.length := by
  unfold repairZero
  by_cases h : c.sum = 0
  · rw [if_pos h]
    exact List.length_set c _ 1
  · rw [if_neg h]

/-- Mutation keeps the length. -/
theorem mutate_length (n : ℕ) (coin : ℕ → Bool) (rep : ℕ) (c : List ℕ) :
    (mutate n coin rep c).length = c.length := by
  unfold mutate
  rw [repairZero_length, mutateGenes_length]

/-- Both offspring of a round are reachable chromosomes. -/
theorem offspringRound_chromOk (n : ℕ) (pop : List (List ℕ)) (fv : List ℝ)
    (pr : PairRand) (hok : ∀ x ∈ pop, chromOk n x) :
    chromOk n (offspringRound n pop fv pr).1 ∧
      chromOk n (offspringRound n pop fv pr).2 := by
  unfold offspringRound
  dsimp only
  have hp1 := tournament_chromOk n pop fv pr.t1 hok
  have hp2 := tournament_chromOk n pop fv pr.t2 hok
  by_cases hx : pr.doCross
  · rw [if_pos hx]
    unfold uniform_crossover
    dsimp only
    constructor
    · apply chromOk_of_length_eq n _ _ hp1
      rw [mutate_length, repairZero_length, crossoverGenes_length]
    · apply chromOk_of_length_eq n _ _ hp2
      rw [mutate_length, repairZero_length, crossoverGenes_length]
  · rw [if_neg hx]
    constructor
    · exact chromOk_of_length_eq n _ _ hp1 (mutate_length n pr.mcoin1 pr.mrep1 _)
    · exact chromOk_of_length_eq n _ _ hp2 (mutate_length n pr.mcoin2 pr.mrep2 _)

/-- Every member of the built offspring population is reachable. -/
theorem offspringLoop_chromOk (n pop_size : ℕ) (pop : List (List ℕ))
    (fv : List ℝ) (r : ℕ → PairRand) (hok : ∀ x ∈ pop, chromOk n x) :
    ∀ (fuel round : ℕ) (acc : List (List ℕ)),
      (∀ x ∈ acc, chromOk n x) →
      ∀ x ∈ offspringLoop n pop_size pop fv r fuel round acc, chromOk n x := by
  intro fuel
  induction fuel with
  | zero =>
      intro round acc hacc x hx
      exact hacc x hx
  | succ m ih =>
      intro round acc hacc x hx
      simp only [offspringLoop] at hx
      by_cases hlen : acc.length < pop_size
      · rw [if_pos hlen] at hx
        have hchild := offspringRound_chromOk n pop fv (r round) hok
        refine ih (round + 1) _ ?_ x hx
        intro y hy
        by_cases h2 : (acc ++ [(offspringRound n pop fv (r round)).1]).length < pop_size
        · rw [if_pos h2] at hy
          rcases List.mem_append.mp hy with hy | hy
          · rcases List.mem_append.mp hy with hy | hy
            · exact hacc y hy
            · rw [List.mem_singleton.mp hy]; exact hchild.1
          · rw [List.mem_singleton.mp hy]; exact hchild.2
        · rw [if_neg h2] at hy
          rcases List.mem_append.mp hy with hy | hy
          · exact hacc y hy
          · rw [List.mem_singleton.mp hy]; exact hchild.1
      · rw [if_neg hlen] at hx
        exact hacc x hx

/-! ## The generational invariant -/

/-- One generation step preserves the invariant and never lowers the best
fitness. -/
theorem genStep_inv (tcpu : ℝ) (base : LogisticsNetwork) (n pop_size : ℕ)
    (r : ℕ → PairRand) (s s' : GAState)
    (hn : n = base.terminals.length) (hInv : GAInv tcpu base n s)
    (h : genStep tcpu n pop_size r s = some s') :
    GAInv tcpu base n s' ∧ s.best_fitness ≤ s'.best_fitness := by
  obtain ⟨hshape, hpop, hbestOk, hbestFit, hbestPos⟩ := hInv
  unfold genStep at h
  dsimp only at h
  split at h
  · exact Option.noConfusion h
  · next fs net' heval =>
      have hnewOk : ∀ x ∈ offspringLoop n pop_size s.population s.fitness_values
          r pop_size 0 [s.best_chromosome], chromOk n x :=
        offspringLoop_chromOk n pop_size s.population s.fitness_values r hpop
          pop_size 0 [s.best_chromosome]
          (by
            intro y hy
            rw [List.mem_singleton.mp hy]
            exact hbestOk)
      have hnewOk' : ∀ x ∈ offspringLoop n pop_size s.population s.fitness_values
          r pop_size 0 [s.best_chromosome], chromOk base.terminals.length x := by
        rw [← hn]
        exact hnewOk
      obtain ⟨hshape', hforall⟩ :=
        evalPopulation_spec tcpu base _ s.net fs net' hshape hnewOk' heval
      split at h
      · exact Option.noConfusion h
      · next bi hbi =>
          obtain ⟨hbimem, hbibound⟩ := maxByKeyFirst_spec _ _ bi hbi
          have hbilt : bi < (offspringLoop n pop_size s.population
              s.fitness_values r pop_size 0 [s.best_chromosome]).length :=
            List.mem_range.mp hbimem
          have hget : (offspringLoop n pop_size s.population s.fitness_values r
              pop_size 0 [s.best_chromosome]).get? bi = some ((offspringLoop n
                pop_size s.population s.fitness_values r pop_size 0
                [s.best_chromosome]).get ⟨bi, hbilt⟩) :=
            List.get?_eq_get hbilt
          obtain ⟨fval, hfsget, hfit⟩ := forall2_get? hforall bi _ hget
          have hgetD : (offspringLoop n pop_size s.population s.fitness_values r
              pop_size 0 [s.best_chromosome]).getD bi [] = (offspringLoop n
                pop_size s.population s.fitness_values r pop_size 0
                [s.best_chromosome]).get ⟨bi, hbilt⟩ := by
            rw [List.getD_eq_get?, hget]
            rfl
          have hfsgetD : fs.getD bi 0 = fval := by
            rw [List.getD_eq_get?, hfsget]
            rfl
          split at h
          · next hlt =>
              rw [← Option.some.inj h]
              refine ⟨⟨hshape', hnewOk, ?_, ?_, ?_⟩, le_of_lt hlt⟩
              · show chromOk n ((offspringLoop n pop_size s.population
                  s.fitness_values r pop_size 0 [s.best_chromosome]).getD bi [])
                exact getD_chromOk n _ hnewOk bi
              · show (calculate_fitness tcpu base ((offspringLoop n pop_size
                  s.population s.fitness_values r pop_size 0
                  [s.best_chromosome]).getD bi [])).map Prod.fst =
                  some (fs.getD bi 0)
                rw [hgetD, hfsgetD]
                exact hfit
              · show (0 : ℝ) < fs.getD bi 0
                exact lt_trans hbestPos hlt
          · next hge =>
              rw [← Option.some.inj h]
              exact ⟨⟨hshape', hnewOk, hbestOk, hbestFit, hbestPos⟩, le_refl _⟩

/-- The generational loop preserves the invariant and never lowers the
best fitness. -/
theorem gaLoop_inv (tcpu : ℝ) (base : LogisticsNetwork) (n pop_size : ℕ)
    (gr : ℕ → ℕ → PairRand) (hn : n = base.terminals.length) :
    ∀ (fuel g : ℕ) (s sF : GAState),
      gaLoop tcpu n pop_size gr fuel g s = some sF → GAInv tcpu base n s →
      GAInv tcpu base n sF ∧ s.best_fitness ≤ sF.best_fitness := by
  intro fuel
  induction fuel with
  | zero =>
      intro g s sF h hInv
      rw [← Option.some.inj h]
      exact ⟨hInv, le_refl _⟩
  | succ m ih =>
      intro g s sF h hInv
      simp only [gaLoop] at h
      split at h
      · exact Option.noConfusion h
      · next s₁ hstep =>
          obtain ⟨hInv₁, hmono₁⟩ :=
            genStep_inv tcpu base n pop_size (gr g) s s₁ hn hInv hstep
          obtain ⟨hInvF, hmonoF⟩ := ih (g + 1) s₁ sF h hInv₁
          exact ⟨hInvF, le_trans hmono₁ hmonoF⟩

/-! ## C4: what the genetic optimiser's final cost is bounded by -/

/-- Setting a gene to 1 inside the list leaves a nonzero sum. -/
theorem set_one_sum_ne : ∀ (l : List ℕ) (i : ℕ), i < l.length →
    (l.set i 1).sum ≠ 0 := by
  intro l
  induction l with
  | nil => intro i h; exact absurd h (by simp)
  | cons x xs ih =>
      intro i h
      cases i with
      | zero =>
          show (1 :: xs).sum ≠ 0
          simp
      | succ m =>
          show (x :: xs.set m 1).sum ≠ 0
          have := ih m (by simpa using h)
          simp only [List.sum_cons]
          omega

/-- Every initial-population chromosome has full length and a nonzero
sum. -/
theorem initialize_population_spec (n pop_size : ℕ) (bits : ℕ → ℕ → Bool)
    (reps : ℕ → ℕ) (hn : n ≠ 0) :
    ∀ c ∈ initialize_population n pop_size bits reps,
      c.length = n ∧ c.sum ≠ 0 := by
  intro c hc
  unfold initialize_population at hc
  obtain ⟨j, hj, rfl⟩ := List.mem_map.mp hc
  constructor
  · rw [repairZero_length]
    simp
  · unfold repairZero
    by_cases hz : (((List.range n).map fun i => if bits j i then 1 else 0)).sum = 0
    · rw [if_pos hz]
      apply set_one_sum_ne
      rw [List.length_map, List.length_range]
      exact Nat.mod_lt _ (Nat.pos_of_ne_zero hn)
    · rw [if_neg hz]
      exact hz

/-- C4 amended: whenever GeneticOptimizer.optimize completes on a network
with a terminal and nonnegative cost data, the reported final cost is at
most the cost induced by every chromosome of the initial population.  (It
is NOT in general at most the network's initial cost: the initial
configuration need not occur in the random population — see the
counterexample.) -/
theorem c4_amended_final_le_initial_population (tcpu : ℝ)
    (pop_size generations : ℕ) (bits : ℕ → ℕ → Bool) (reps : ℕ → ℕ)
    (gr : ℕ → ℕ → PairRand) (net : LogisticsNetwork) (r : Improvement)
    (netF : LogisticsNetwork) (hT : net.terminals ≠ [])
    (hnn : NonnegSetup tcpu net)
    (h : genetic_optimize tcpu pop_size generations bits reps gr net =
      some (r, netF))
    (c : List ℕ)
    (hc : c ∈ initialize_population net.terminals.length pop_size bits reps)
    (cc : ℝ) (hcc : configCost tcpu net c = some cc) :
    r.final_cost ≤ cc := by
  have hn0 : net.terminals.length ≠ 0 := fun hz =>
    hT (List.eq_nil_of_length_eq_zero hz)
  have hinitspec := initialize_population_spec net.terminals.length pop_size
    bits reps hn0
  unfold genetic_optimize at h
  dsimp only at h
  split at h
  · exact Option.noConfusion h
  · next cb0 hcb0 =>
      split at h
      · exact Option.noConfusion h
      · next fs0 net0 heval0 =>
          split at h
          · exact Option.noConfusion h
          · next bi hbi =>
              split at h
              · exact Option.noConfusion h
              · next sF hloop =>
                  split at h
                  · exact Option.noConfusion h
                  · next netF' happlyF =>
                      split at h
                      · exact Option.noConfusion h
                      · next cbF hcostF =>
                          split at h
                          · next rec himp =>
                              have hpair := Option.some.inj h
                              have hrec : rec = r := congrArg Prod.fst hpair
                              have hrf : r.final_cost = cbF.total_cost := by
                                obtain ⟨-, hf⟩ := get_improvement_some_some
                                  cb0.total_cost cbF.total_cost rec himp
                                rw [← hrec, hf]
                              -- the initial invariant
                              have hpop0ok : ∀ x ∈ initialize_population
                                  net.terminals.length pop_size bits reps,
                                  chromOk net.terminals.length x := fun x hx =>
                                Or.inl (hinitspec x hx).1
                              obtain ⟨hshape0, hforall0⟩ :=
                                evalPopulation_spec tcpu net _ net fs0 net0
                                  (sameShape_refl net) hpop0ok heval0
                              obtain ⟨hbimem, hbibound⟩ :=
                                maxByKeyFirst_spec _ _ bi hbi
                              have hbilt := List.mem_range.mp hbimem
                              have hget0 := List.get?_eq_get hbilt
                              obtain ⟨fval0, hfs0get, hfit0⟩ :=
                                forall2_get? hforall0 bi _ hget0
                              have hgetD0 : (initialize_population
                                  net.terminals.length pop_size bits reps).getD bi [] =
                                  (initialize_population net.terminals.length
                                    pop_size bits reps).get ⟨bi, hbilt⟩ := by
                                rw [List.getD_eq_get?, hget0]
                                rfl
                              have hfs0getD : fs0.getD bi 0 = fval0 := by
                                rw [List.getD_eq_get?, hfs0get]
                                rfl
                              have hmem0 : (initialize_population
                                  net.terminals.length pop_size bits reps).get
                                    ⟨bi, hbilt⟩ ∈ initialize_population
                                      net.terminals.length pop_size bits reps :=
                                List.get_mem _ bi hbilt
                              have hsum0 := (hinitspec _ hmem0).2
                              have hpos0 : 0 < fval0 :=
                                fitness_pos tcpu net _ fval0 hnn hsum0 hfit0
                              have hInv0 : GAInv tcpu net net.terminals.length
                                  ⟨initialize_population net.terminals.length
                                    pop_size bits reps, fs0,
                                    (initialize_population net.terminals.length
                                      pop_size bits reps).getD bi [],
                                    fs0.getD bi 0, net0⟩ := by
                                refine ⟨hshape0, hpop0ok, ?_, ?_, ?_⟩
                                · exact getD_chromOk _ _ hpop0ok bi
                                · show (calculate_fitness tcpu net _).map Prod.fst = some (fs0.getD bi 0)
                                  rw [hgetD0, hfs0getD]
                                  exact hfit0
                                · show (0 : ℝ) < fs0.getD bi 0
                                  rw [hfs0getD]
                                  exact hpos0
                              obtain ⟨hInvF, hmono⟩ := gaLoop_inv tcpu net
                                net.terminals.length pop_size gr rfl generations
                                0 _ sF hloop hInv0
                              obtain ⟨hshapeF, -, hbestOkF, hbestFitF, hbestPosF⟩ := hInvF
                              -- the final best chromosome is not all-zero
                              have hsumF : sF.best_chromosome.sum ≠ 0 := by
                                intro hz
                                have : calculate_fitness tcpu net sF.best_chromosome =
                                    some (0, net) := by
                                  unfold calculate_fitness
                                  rw [if_pos hz]
                                rw [this] at hbestFitF
                                have : (0 : ℝ) = sF.best_fitness :=
                                  Option.some.inj hbestFitF
                                rw [← this] at hbestPosF
                                exact lt_irrefl 0 hbestPosF
                              obtain ⟨netB, cbB2, happlyB, hcostB, hdenB, hfB⟩ :=
                                fitness_formula tcpu net sF.best_chromosome
                                  sF.best_fitness hsumF hbestFitF
                              have hlenF : net.terminals.length ≤
                                  sF.best_chromosome.length := by
                                rcases hbestOkF with hl | hl
                                · exact le_of_eq hl.symm
                                · exact absurd (by rw [hl]; rfl) hsumF
                              have happly_eq : apply_chromosome sF.best_chromosome
                                  net = apply_chromosome sF.best_chromosome sF.net :=
                                apply_eq_of_sameShape sF.best_chromosome net sF.net
                                  hshapeF hlenF
                              have hnetBF : netB = netF' := by
                                have := happlyB
                                rw [happly_eq, happlyF] at this
                                exact (Option.some.inj this).symm
                              have hcbBF : cbB2 = cbF := by
                                rw [hnetBF] at hcostB
                                rw [hcostB] at hcostF
                                exact Option.some.inj hcostF
                              -- the queried chromosome's fitness
                              obtain ⟨k, hk⟩ := List.get?_of_mem hc
                              obtain ⟨fc, hfck, hfitc⟩ := forall2_get? hforall0 k c hk
                              obtain ⟨netC, cbC, happlyC, hcostC, hdenC, hfcEq⟩ :=
                                fitness_formula tcpu net c fc (hinitspec c hc).2 hfitc
                              have hccEq : cc = cbC.total_cost := by
                                unfold configCost at hcc
                                rw [happlyC] at hcc
                                have hcc' : (netC.calculate_costs tcpu).map
                                    (fun cb => cb.total_cost) = some cc := hcc
                                rw [hcostC] at hcc'
                                exact (Option.some.inj hcc').symm
                              -- the comparison through fitness
                              have hklt : k < (initialize_population
                                  net.terminals.length pop_size bits reps).length := by
                                rcases List.get?_eq_some.mp hk with ⟨hlt, -⟩
                                exact hlt
                              have hkc : fs0.getD k 0 = fc := by
                                obtain ⟨y, hy, hRy⟩ := forall2_get? hforall0 k c hk
                                rw [List.getD_eq_get?, hy]
                                have : y = fc := by
                                  rw [hRy] at hfitc
                                  exact Option.some.inj hfitc.symm |>.symm
                                rw [this]
                                rfl
                              have hbound : fc ≤ fs0.getD bi 0 := by
                                have := hbibound k (List.mem_range.mpr hklt)
                                rw [hkc] at this
                                exact this
                              have hchain : fc ≤ sF.best_fitness := by
                                have h0 : fs0.getD bi 0 ≤ sF.best_fitness := hmono
                                exact le_trans hbound h0
                              -- nonnegativity of both costs
                              have hccnn : 0 ≤ cbC.total_cost := by
                                have hsh := apply_preserves_shape c net netC happlyC
                                exact calculate_costs_nonneg tcpu netC cbC
                                  (nonneg_of_sameShape tcpu net netC hsh hnn) hcostC
                              have hFnn : 0 ≤ cbF.total_cost := by
                                have hsh := apply_preserves_shape sF.best_chromosome
                                  net netB happlyB
                                have := calculate_costs_nonneg tcpu netB cbB2
                                  (nonneg_of_sameShape tcpu net netB hsh hnn) hcostB
                                rw [← hcbBF]
                                exact this
                              -- convert the fitness inequality into a cost one
                              rw [hfcEq, hfB, hcbBF] at hchain
                              have hposcc : (0 : ℝ) < 1 + cbC.total_cost := by linarith
                              have hfinal := le_of_one_div_le_one_div hposcc hchain
                              rw [hrf, hccEq]
                              linarith
                          · exact Option.noConfusion h

/-! ## Evaluation of the genetic optimiser on cnetB -/

/-- The square root of 25. -/
theorem sqrt25 : Real.sqrt 25 = 5 := by
  rw [show (25 : ℝ) = 5 ^ 2 by norm_num]
  exact Real.sqrt_sq (by norm_num)

/-- The initial cost breakdown of cnetB: both terminals open, the consumer
served at distance zero by terminal 0. -/
theorem cnetB_costs :
    cnetB.calculate_costs 1 = some ⟨2, 0, 0, 0, 0, 2⟩ := by
  show some (calculate_total_cost 1 ⟨0, 0, 0⟩ cnetB.terminals cnetB.consumers) = _
  norm_num [calculate_total_cost, calculate_terminal_fixed_costs,
    calculate_processing_costs, calculate_transportation_costs,
    centerToTerminalCost, terminalToConsumersCost, consumersFor, cnetB,
    euclidean_distance, Center.pos, Terminal.pos, Consumer.pos,
    CostBreakdown.mk.injEq, Real.sqrt_zero]

/-- The oracle-driven initial population over two terminals: the single
chromosome [0, 1]. -/
theorem cnetB_init_pop : initialize_population 2 1 bitsB repsB = [[0, 1]] := rfl

/-- Applying [0, 1] to cnetB closes terminal 0 and reroutes the consumer
to terminal 1. -/
theorem cnetB_apply01 : apply_chromosome [0, 1] cnetB = some cnetB' := rfl

/-- Applying [0, 1] to the already-applied network changes nothing. -/
theorem cnetB_apply01' : apply_chromosome [0, 1] cnetB' = some cnetB' := rfl

/-- The cost breakdown of the applied network: only terminal 1, five units
from centre and consumer alike. -/
theorem cnetB'_costs : cnetB'.calculate_costs 1 = some cbB' := by
  show some (calculate_total_cost 1 ⟨0, 0, 0⟩ cnetB'.terminals cnetB'.consumers) =
    some cbB'
  norm_num [calculate_total_cost, calculate_terminal_fixed_costs,
    calculate_processing_costs, calculate_transportation_costs,
    centerToTerminalCost, terminalToConsumersCost, consumersFor, cnetB', cbB',
    euclidean_distance, Center.pos, Terminal.pos, Consumer.pos,
    CostBreakdown.mk.injEq, sqrt25]

/-- The fitness of [0, 1] on cnetB. -/
theorem cnetB_fitness01 :
    calculate_fitness 1 cnetB [0, 1] = some (2 / 15, cnetB') := by
  unfold calculate_fitness
  rw [if_neg (by decide : ¬([0, 1] : List ℕ).sum = 0)]
  simp only [cnetB_apply01, cnetB'_costs]
  show (match pyDiv 1 (1 + cbB'.total_cost) with
    | none => none
    | some f => some (f, cnetB')) = some (2 / 15, cnetB')
  rw [show pyDiv 1 (1 + cbB'.total_cost) = some (2 / 15) from by
    unfold pyDiv
    rw [if_neg (by norm_num [cbB'] : ¬(1 + cbB'.total_cost = (0 : ℝ)))]
    norm_num [cbB']]

/-- Evaluating the one-chromosome population on cnetB. -/
theorem cnetB_evalPop :
    evalPopulation 1 [[0, 1]] cnetB = some ([2 / 15], cnetB') := by
  show (match calculate_fitness 1 cnetB [0, 1] with
    | none => none
    | some (f, net') =>
        match evalPopulation 1 [] net' with
        | none => none
        | some (fs, net'') => some (f :: fs, net'')) = _
  simp only [cnetB_fitness01]
  rfl

/-- The complete genetic run on cnetB: zero generations, the best (only)
chromosome [0, 1] is applied, and the reported final cost 13/2 exceeds the
initial cost 2. -/
theorem cnetB_optimize :
    genetic_optimize 1 1 0 bitsB repsB grB cnetB = some (impB, cnetB') := by
  unfold genetic_optimize
  dsimp only
  simp only [cnetB_costs]
  simp only [show cnetB.terminals.length = 2 from rfl, cnetB_init_pop,
    cnetB_evalPop]
  simp only [show maxByKeyFirst (fun i => ([(2 : ℝ) / 15]).getD i 0)
    (List.range ([[0, 1]] : List (List ℕ)).length) = some 0 from rfl]
  simp only [show gaLoop 1 2 1 grB 0 0
      ⟨[[0, 1]], [2 / 15], ([[0, 1]] : List (List ℕ)).getD 0 [],
        ([(2 : ℝ) / 15]).getD 0 0, cnetB'⟩ =
    some ⟨[[0, 1]], [2 / 15], [0, 1], ([(2 : ℝ) / 15]).getD 0 0, cnetB'⟩ from rfl]
  simp only [cnetB_apply01', cnetB'_costs]
  show (match get_improvement (some ((2 : ℝ))) (some cbB'.total_cost) with
    | some (some r) => some (r, cnetB')
    | _ => none) = some (impB, cnetB')
  rw [show get_improvement (some ((2 : ℝ))) (some cbB'.total_cost) =
      some (some impB) from by
    show (match pyDiv ((2 : ℝ) - cbB'.total_cost) 2 with
      | none => none
      | some q => some (some
          { initial_cost := (2 : ℝ), final_cost := cbB'.total_cost,
            absolute_improvement := 2 - cbB'.total_cost,
            percentage_improvement := q * 100 })) = some (some impB)
    rw [show pyDiv ((2 : ℝ) - cbB'.total_cost) 2 =
        some (((2 : ℝ) - cbB'.total_cost) / 2) from by
      unfold pyDiv
      rw [if_neg (by norm_num : ¬((2 : ℝ) = 0))]]
    norm_num [cbB', impB, Improvement.mk.injEq]]

/-- C4 counterexample: the genetic run on cnetB (population [[0, 1]], zero
generations — oracles a real random sequence can produce) completes with
final cost 13/2 strictly above the initial cost 2, refuting final_cost ≤
initial_cost as stated. -/
theorem c4_counterexample_final_exceeds_initial :
    (genetic_optimize 1 1 0 bitsB repsB grB cnetB).elim False
      (fun p => p.1.initial_cost < p.1.final_cost) := by
  rw [cnetB_optimize]
  show impB.initial_cost < impB.final_cost
  norm_num [impB]

/-- C4 witness: the amended bound applied at the cnetB run — the reported
final cost 13/2 is at most 13/2, the cost induced by the initial
population's chromosome [0, 1]. -/
theorem c4_witness_cnetB : impB.final_cost ≤ 13 / 2 :=
  c4_amended_final_le_initial_population 1 1 0 bitsB repsB grB cnetB impB cnetB'
    (by simp [cnetB])
    (by
      unfold NonnegSetup
      refine ⟨by norm_num, ?_, ?_⟩
      · intro t ht
        simp only [cnetB, List.mem_cons, List.not_mem_nil, or_false] at ht
        rcases ht with rfl | rfl <;> norm_num
      · intro c hcm
        simp only [cnetB, List.mem_cons, List.not_mem_nil, or_false] at hcm
        rcases hcm with rfl
        norm_num)
    cnetB_optimize [0, 1]
    (by
      rw [show cnetB.terminals.length = 2 from rfl, cnetB_init_pop]
      exact List.mem_singleton.mpr rfl)
    (13 / 2)
    (by
      unfold configCost
      rw [cnetB_apply01]
      show (cnetB'.calculate_costs 1).map (fun cb => cb.total_cost) =
        some (13 / 2)
      rw [cnetB'_costs]
      norm_num [cbB'])
